import Mathlib

/-!
Verification of the regex-rs NFA engine (src/nfa.rs).

The engine has three stages:
* `re2post` — infix pattern to explicit-concatenation postfix form;
* `compile` — Thompson construction over a fragment stack, producing an
  `NFAGraph` whose state table maps state ids to states, each state owning a
  map from destination id to the labelling transition;
* `is_match` — epsilon-closure simulation of the graph over an input string.

Rust `HashMap`s are modelled as association lists with distinct keys
(`insertA` replaces the value at an existing key, exactly like
`HashMap::insert`); only key/value membership of those maps is ever observed
by the engine, so the list order is immaterial.  `unwrap` calls on map
lookups — the code's panic points — are modelled by `Option`: a `none`
result of a modelled function is a panic of the original.  The `panic!`
branches for illegal characters are modelled by dedicated outcome
constructors.  Rust's `s.len()` on a `&str` is the UTF-8 byte length; it is
modelled exactly by summing `Char.utf8Size`.
-/

namespace RegexRs

/-- Insert into an association list keyed by `Nat`, replacing the entry at an
existing key — the behaviour of `HashMap::insert`. -/
def insertA {α : Type} (k : Nat) (v : α) : List (Nat × α) → List (Nat × α)
  | [] => [(k, v)]
  | (k0, v0) :: rest =>
    if k0 = k then (k, v) :: rest else (k0, v0) :: insertA k v rest

/-- Lookup in an association list keyed by `Nat` — `HashMap::get`. -/
def lookupA {α : Type} (k : Nat) : List (Nat × α) → Option α
  | [] => none
  | (k0, v0) :: rest => if k0 = k then some v0 else lookupA k rest

/-- `Transition` from src/nfa.rs: an edge label, either epsilon or a set of
characters (the code only ever builds singleton vectors). -/
inductive Transition : Type
  | epsilon : Transition
  | char (cs : List Char) : Transition
deriving DecidableEq, Repr

/-- `State` from src/nfa.rs: a state id together with the map from
destination state id to the transition labelling the edge there (`outs`). -/
structure State : Type where
  id : Nat
  outs : List (Nat × Transition)
deriving DecidableEq, Repr

/-- `Frag` from src/nfa.rs: a compilation-time fragment; `ends` models the
source field `end` (a Rust keyword-free name is required in Lean). -/
structure Frag : Type where
  start : Nat
  ends : List Nat
deriving DecidableEq, Repr

/-- `NFAGraph` from src/nfa.rs. -/
structure NFAGraph : Type where
  states : List (Nat × State)
  last_id : Nat
  start : Nat
  ends : List Nat
deriving DecidableEq, Repr

/-- Models Rust `char::is_alphanumeric` on the character set this repository
exercises (ASCII letters and digits). -/
def isAlphanumeric (c : Char) : Bool := c.isAlphanum

/-! ## Postfix converter (`re2post`, src/nfa.rs lines 252-336) -/

/-- Converter loop state: the emitted output so far (`acc`, the Rust
`postfix` string), the saved `(natom, nalt)` pairs for open groups
(`paren`), and the current atom/alternation counters. -/
structure ConvSt : Type where
  acc : List Char
  paren : List (Nat × Nat)
  natom : Nat
  nalt : Nat
deriving DecidableEq, Repr

/-- Outcome of one converter step: continue, return `None` (a parse error),
or hit the `panic!("illegal character")` branch. -/
inductive CStep : Type
  | cont (st : ConvSt) : CStep
  | errStep : CStep
  | panicStep : CStep
deriving DecidableEq, Repr

/-- `while natom > 1 { natom -= 1; postfix.push('.') }`. -/
def flushConcat : Nat → List Char → Nat × List Char
  | 0, acc => (0, acc)
  | 1, acc => (1, acc)
  | n + 2, acc => flushConcat (n + 1) (acc ++ ['.'])

/-- `while nalt > 0 { nalt -= 1; postfix.push('|') }`. -/
def flushAlt : Nat → List Char → List Char
  | 0, acc => acc
  | n + 1, acc => flushAlt n (acc ++ ['|'])

/-- One iteration of the `re2post` character loop. -/
def convStep (st : ConvSt) (c : Char) : CStep :=
  if c = '(' then
    let p := if st.natom > 1 then (st.natom - 1, st.acc ++ ['.']) else (st.natom, st.acc)
    CStep.cont { acc := p.2, paren := (p.1, st.nalt) :: st.paren, natom := 0, nalt := 0 }
  else if c = '|' then
    if st.natom = 0 then CStep.errStep
    else
      let p := flushConcat st.natom st.acc
      let natom := if p.1 = 1 then 0 else p.1
      CStep.cont { acc := p.2, paren := st.paren, natom := natom, nalt := st.nalt + 1 }
  else if c = ')' then
    match st.paren with
    | [] => CStep.errStep
    | (pn, pa) :: rest =>
      if st.natom = 0 then CStep.errStep
      else
        let p := flushConcat st.natom st.acc
        let acc := flushAlt st.nalt p.2
        CStep.cont { acc := acc, paren := rest, natom := pn + 1, nalt := pa }
  else if c = '*' ∨ c = '+' ∨ c = '?' then
    if st.natom = 0 then CStep.errStep
    else CStep.cont { st with acc := st.acc ++ [c] }
  else if isAlphanumeric c then
    let p := if st.natom > 1 then (st.natom - 1, st.acc ++ ['.']) else (st.natom, st.acc)
    CStep.cont { acc := p.2 ++ [c], paren := st.paren, natom := p.1 + 1, nalt := st.nalt }
  else
    CStep.panicStep

/-- The `re2post` character loop. -/
def convFold (st : ConvSt) : List Char → CStep
  | [] => CStep.cont st
  | c :: rest =>
    match convStep st c with
    | CStep.cont st1 => convFold st1 rest
    | CStep.errStep => CStep.errStep
    | CStep.panicStep => CStep.panicStep

/-- Overall outcome of `re2post`: `ok` for `Some(postfix)`, `err` for
`None`, `panicked` for the illegal-character panic. -/
inductive ConvOut : Type
  | panicked : ConvOut
  | err : ConvOut
  | ok (post : List Char) : ConvOut
deriving DecidableEq, Repr

/-- `re2post` from src/nfa.rs: run the loop, reject unbalanced parentheses,
then flush the remaining concatenations and alternations. -/
def re2post (re : List Char) : ConvOut :=
  match convFold ⟨[], [], 0, 0⟩ re with
  | CStep.panicStep => ConvOut.panicked
  | CStep.errStep => ConvOut.err
  | CStep.cont st =>
    if st.paren = [] then
      let p := flushConcat st.natom st.acc
      ConvOut.ok (flushAlt st.nalt p.2)
    else ConvOut.err

/-! ## NFA compiler (`NFAGraph::compile`, src/nfa.rs lines 51-182) -/

/-- Outcome of one compiler token: continue with graph and fragment stack,
return the graph early (operator with insufficient stack depth), or panic. -/
inductive CompStep : Type
  | cont (g : NFAGraph) (stack : List Frag) : CompStep
  | early (g : NFAGraph) : CompStep
  | panicStep : CompStep
deriving DecidableEq, Repr

/-- `for next in ends { states.get_mut(next).unwrap().outs.insert(dst, t) }`;
`none` models the `unwrap` panic on a missing state. -/
def wireEnds (g : NFAGraph) (ends : List Nat) (dst : Nat) (t : Transition) : Option NFAGraph :=
  match ends with
  | [] => some g
  | e :: rest =>
    match lookupA e g.states with
    | none => none
    | some st =>
      wireEnds { g with states := insertA e { st with outs := insertA dst t st.outs } g.states }
        rest dst t

/-- The per-end double insertion of the `*` and `+` branches: each end gets
an epsilon edge to the new end state and an epsilon edge back to the
fragment start, in that order. -/
def wireStarEnds (g : NFAGraph) (ends : List Nat) (eId fStart : Nat) : Option NFAGraph :=
  match ends with
  | [] => some g
  | e :: rest =>
    match lookupA e g.states with
    | none => none
    | some st =>
      let st1 := { st with outs := insertA fStart Transition.epsilon (insertA eId Transition.epsilon st.outs) }
      wireStarEnds { g with states := insertA e st1 g.states } rest eId fStart

/-- The `'.'` (concatenation) branch of the `compile` match: pop two
fragments, wire every end of the first to the start of the second. -/
def stepDot (g : NFAGraph) (stack : List Frag) : CompStep :=
  match stack with
  | f2 :: f1 :: rest =>
    match wireEnds g f1.ends f2.start Transition.epsilon with
    | none => CompStep.panicStep
    | some g1 => CompStep.cont g1 (⟨f1.start, f2.ends⟩ :: rest)
  | _ => CompStep.early g

/-- The `'|'` (alternation) branch: new start and end states, epsilon edges
from the new start to both fragment starts and from every fragment end to
the new end. -/
def stepAlt (g : NFAGraph) (stack : List Frag) : CompStep :=
  match stack with
  | f2 :: f1 :: rest =>
    let sId := g.last_id
    let eId := g.last_id + 1
    let startOuts := insertA f2.start Transition.epsilon
      (insertA f1.start Transition.epsilon [])
    let g1 := { g with last_id := g.last_id + 2 }
    match wireEnds g1 f1.ends eId Transition.epsilon with
    | none => CompStep.panicStep
    | some g2 =>
      match wireEnds g2 f2.ends eId Transition.epsilon with
      | none => CompStep.panicStep
      | some g3 =>
        let finalStates := insertA eId ⟨eId, []⟩ (insertA sId ⟨sId, startOuts⟩ g3.states)
        CompStep.cont { g3 with states := finalStates } (⟨sId, [eId]⟩ :: rest)
  | _ => CompStep.early g

/-- The `'?'` branch: add an epsilon bypass from the fragment's start to
each of its ends, pushing the same fragment back. -/
def stepQm (g : NFAGraph) (stack : List Frag) : CompStep :=
  match stack with
  | f :: rest =>
    match lookupA f.start g.states with
    | none => CompStep.panicStep
    | some st =>
      let outs1 := f.ends.foldl (fun o e => insertA e Transition.epsilon o) st.outs
      let st1 := { st with outs := outs1 }
      CompStep.cont { g with states := insertA f.start st1 g.states } (f :: rest)
  | [] => CompStep.early g

/-- The `'*'` branch: new start and end states, epsilon from the new start
to the fragment start, an epsilon bypass from the old start to each
fragment end, and from each end an epsilon to the new end and back to the
fragment start. -/
def stepStar (g : NFAGraph) (stack : List Frag) : CompStep :=
  match stack with
  | f :: rest =>
    let sId := g.last_id
    let eId := g.last_id + 1
    let startOuts := insertA f.start Transition.epsilon []
    let g1 := { g with last_id := g.last_id + 2 }
    match lookupA f.start g1.states with
    | none => CompStep.panicStep
    | some oldStart =>
      let outs1 := f.ends.foldl (fun o e => insertA e Transition.epsilon o) oldStart.outs
      let oldStart1 := { oldStart with outs := outs1 }
      let g2 := { g1 with states := insertA f.start oldStart1 g1.states }
      match wireStarEnds g2 f.ends eId f.start with
      | none => CompStep.panicStep
      | some g3 =>
        let finalStates := insertA eId ⟨eId, []⟩ (insertA sId ⟨sId, startOuts⟩ g3.states)
        CompStep.cont { g3 with states := finalStates } (⟨sId, [eId]⟩ :: rest)
  | [] => CompStep.early g

/-- The `'+'` branch: as `'*'` but with no bypass from the old start. -/
def stepPlus (g : NFAGraph) (stack : List Frag) : CompStep :=
  match stack with
  | f :: rest =>
    let sId := g.last_id
    let eId := g.last_id + 1
    let startOuts := insertA f.start Transition.epsilon []
    let g1 := { g with last_id := g.last_id + 2 }
    match wireStarEnds g1 f.ends eId f.start with
    | none => CompStep.panicStep
    | some g2 =>
      let finalStates := insertA eId ⟨eId, []⟩ (insertA sId ⟨sId, startOuts⟩ g2.states)
      CompStep.cont { g2 with states := finalStates } (⟨sId, [eId]⟩ :: rest)
  | [] => CompStep.early g

/-- The literal branch: two new states joined by a single-character edge. -/
def stepLit (g : NFAGraph) (stack : List Frag) (ch : Char) : CompStep :=
  let sId := g.last_id
  let eId := g.last_id + 1
  let newStates := insertA eId ⟨eId, []⟩ (insertA sId ⟨sId, insertA eId (Transition.char [ch]) []⟩ g.states)
  CompStep.cont { g with last_id := g.last_id + 2, states := newStates } (⟨sId, [eId]⟩ :: stack)

/-- One iteration of the `compile` token loop; mirrors the Rust `match`
branch by branch, including the order of map mutations. -/
def compileStep (g : NFAGraph) (stack : List Frag) (ch : Char) : CompStep :=
  if ch = '.' then stepDot g stack
  else if ch = '|' then stepAlt g stack
  else if ch = '?' then stepQm g stack
  else if ch = '*' then stepStar g stack
  else if ch = '+' then stepPlus g stack
  else if isAlphanumeric ch then stepLit g stack ch
  else CompStep.panicStep

/-- The `compile` token loop. -/
def compileFold (g : NFAGraph) (stack : List Frag) : List Char → CompStep
  | [] => CompStep.cont g stack
  | c :: rest =>
    match compileStep g stack c with
    | CompStep.cont g1 st1 => compileFold g1 st1 rest
    | CompStep.early g1 => CompStep.early g1
    | CompStep.panicStep => CompStep.panicStep

/-- The initial graph of `compile`: empty state table, `last_id = 0`,
`start = StateId(0)`, `ends = vec![StateId(0)]`. -/
def initGraph : NFAGraph := ⟨[], 0, 0, [0]⟩

/-- `NFAGraph::compile`; `none` models a panic (illegal postfix character or
a failed `unwrap`).  After the loop, a non-empty stack sets `start`/`ends`
from the popped top fragment. -/
def compile (post : List Char) : Option NFAGraph :=
  match compileFold initGraph [] post with
  | CompStep.panicStep => none
  | CompStep.early g => some g
  | CompStep.cont g stack =>
    match stack with
    | [] => some g
    | f :: _ => some { g with start := f.start, ends := f.ends }

/-- `NFAGraph::new`: convert then compile; both the `None` arm (the
`panic!("illegal pattern")`) and a panic inside `re2post` yield `none`. -/
def NFAGraph.new (pattern : List Char) : Option NFAGraph :=
  match re2post pattern with
  | ConvOut.ok post => compile post
  | ConvOut.err => none
  | ConvOut.panicked => none

/-! ## Matcher (`is_match` / `check_match` / `closure` / `move2`,
src/nfa.rs lines 184-243) -/

/-- Rust `s.len()` on a `&str`: the UTF-8 byte length of the string. -/
def byteLen (s : List Char) : Nat := (s.map Char.utf8Size).sum

/-- The inner loop of `move2`: collect destinations of `Char` edges whose
character vector contains `c`. -/
def scanOuts (c : Char) (outs : List (Nat × Transition)) (acc : List Nat) : List Nat :=
  match outs with
  | [] => acc
  | (d, t) :: rest =>
    match t with
    | Transition.epsilon => scanOuts c rest acc
    | Transition.char cs =>
      if cs.contains c then scanOuts c rest (acc ++ [d]) else scanOuts c rest acc

/-- The outer loop of `move2`; `none` models the `unwrap` panic on a state
id absent from the state table. -/
def move2Go (g : NFAGraph) (c : Char) : List Nat → List Nat → Option (List Nat)
  | [], acc => some acc
  | sid :: rest, acc =>
    match lookupA sid g.states with
    | none => none
    | some st => move2Go g c rest (scanOuts c st.outs acc)

/-- `NFAGraph::move2`. -/
def move2 (g : NFAGraph) (c : Char) (current : List Nat) : Option (List Nat) :=
  move2Go g c current []

/-- The body of the `closure` while-loop applied to one popped state's
`outs`: append each epsilon destination not yet in the closure set to both
the closure set and the queue. -/
def epsAdd : List Nat → List Nat → List (Nat × Transition) → List Nat × List Nat
  | cs, q, [] => (cs, q)
  | cs, q, (d, t) :: outs =>
    match t with
    | Transition.epsilon =>
      if cs.contains d then epsAdd cs q outs else epsAdd (cs ++ [d]) (q ++ [d]) outs
    | Transition.char _ => epsAdd cs q outs

/-- All transition destinations appearing anywhere in the state table. -/
def destsList (g : NFAGraph) : List Nat :=
  (g.states.map (fun p => p.2.outs.map Prod.fst)).flatten

/-- The `closure` while-loop, fuelled: pop the queue front, look the state
up (`none` models the `unwrap` panic), and push its fresh epsilon
destinations.  The fuel is an upper bound on the number of iterations — the
loop provably pops at most the initial queue plus one entry per distinct
destination — so fuel exhaustion never occurs for the fuel chosen in
`closure` (`closureLoop_no_fuel_exhaustion` below). -/
def closureLoop (g : NFAGraph) : Nat → List Nat → List Nat → Option (List Nat)
  | 0, _, _ => none
  | _ + 1, cs, [] => some cs
  | fuel + 1, cs, sid :: rest =>
    match lookupA sid g.states with
    | none => none
    | some st =>
      let p := epsAdd cs rest st.outs
      closureLoop g fuel p.1 p.2

/-- `NFAGraph::closure`: the closure set and the queue both start as the
input set. -/
def closure (g : NFAGraph) (current : List Nat) : Option (List Nat) :=
  closureLoop g (current.length + (destsList g).length + 1) current current

/-- The acceptance scan of `check_match` over one closure set: look each
state up (`none` models the `unwrap` panic) and succeed on the first state
with no outgoing edges, provided this is the last character position. -/
def acceptScan (g : NFAGraph) (isLast : Bool) : List Nat → Option Bool
  | [] => some false
  | sid :: rest =>
    match lookupA sid g.states with
    | none => none
    | some st =>
      if st.outs.isEmpty && isLast then some true else acceptScan g isLast rest

/-- The character loop of `check_match`: `i` is the `enumerate` index and
`total` the byte length of the whole input. -/
def matchLoop (g : NFAGraph) (total : Nat) : Nat → List Nat → List Char → Option Bool
  | _, _, [] => some false
  | i, next, c :: rest =>
    match move2 g c next with
    | none => none
    | some cur =>
      match closure g cur with
      | none => none
      | some next2 =>
        if next2.isEmpty then some false
        else
          match acceptScan g (decide (i = total - 1)) next2 with
          | none => none
          | some true => some true
          | some false => matchLoop g total (i + 1) next2 rest

/-- `NFAGraph::check_match`. -/
def check_match (g : NFAGraph) (s : List Char) (state_id : Nat) : Option Bool :=
  match closure g [state_id] with
  | none => none
  | some next => matchLoop g (byteLen s) 0 next s

/-- `NFAGraph::is_match`; `none` models a panic during matching. -/
def is_match (g : NFAGraph) (s : List Char) : Option Bool :=
  check_match g s g.start

/-- The sequence of simulation state sets: entry `0` is the epsilon closure
of the start state, entry `i + 1` the closure of the move by the `i`-th
input character; `none` propagates a panic (or an out-of-range index). -/
def nthSet (g : NFAGraph) (s : List Char) : Nat → Option (List Nat)
  | 0 => closure g [g.start]
  | n + 1 =>
    match s.get? n with
    | none => none
    | some c =>
      match nthSet g s n with
      | none => none
      | some S =>
        match move2 g c S with
        | none => none
        | some cur => closure g cur

/-- The graph compiled from the single-literal postfix string "a". -/
def litAG : NFAGraph :=
  ⟨[(0, ⟨0, [(1, Transition.char ['a'])]⟩), (1, ⟨1, []⟩)], 2, 0, [1]⟩

/-! ## Association-list lemmas -/

theorem lookupA_insertA {α : Type} (k k0 : Nat) (v : α) (m : List (Nat × α)) :
    lookupA k0 (insertA k v m) = if k = k0 then some v else lookupA k0 m := by
  induction m with
  | nil => simp [insertA, lookupA]
  | cons p rest ih =>
    obtain ⟨k1, v1⟩ := p
    by_cases h1 : k1 = k
    · subst h1
      simp only [insertA, if_pos rfl, lookupA]
      split_ifs <;> simp_all
    · simp only [insertA, if_neg h1, lookupA, ih]
      split_ifs <;> simp_all

theorem lookupA_mem {α : Type} {k : Nat} {v : α} {m : List (Nat × α)}
    (h : lookupA k m = some v) : (k, v) ∈ m := by
  induction m with
  | nil => simp [lookupA] at h
  | cons p rest ih =>
    obtain ⟨k1, v1⟩ := p
    simp only [lookupA] at h
    split_ifs at h with h1
    · cases h1
      cases h
      exact List.mem_cons_self _ _
    · exact List.mem_cons_of_mem _ (ih h)

theorem mem_insertA {α : Type} {p : Nat × α} {k : Nat} {v : α} {m : List (Nat × α)} :
    p ∈ insertA k v m → p = (k, v) ∨ p ∈ m := by
  induction m with
  | nil =>
    intro h
    simpa [insertA] using h
  | cons q rest ih =>
    obtain ⟨k1, v1⟩ := q
    intro h
    by_cases h1 : k1 = k
    · subst h1
      simp only [insertA, eq_self_iff_true, if_true, List.mem_cons] at h
      rcases h with h2 | h2
      · exact Or.inl h2
      · exact Or.inr (List.mem_cons_of_mem _ h2)
    · simp only [insertA, if_neg h1, List.mem_cons] at h
      rcases h with h2 | h2
      · exact Or.inr (by simp [h2])
      · rcases ih h2 with h3 | h3
        · exact Or.inl h3
        · exact Or.inr (List.mem_cons_of_mem _ h3)

/-- Is `k` a key of the state table? -/
def isKeyS (k : Nat) (m : List (Nat × State)) : Bool := (lookupA k m).isSome

theorem isKeyS_insertA (k k0 : Nat) (st : State) (m : List (Nat × State)) :
    isKeyS k0 (insertA k st m) = true ↔ k = k0 ∨ isKeyS k0 m = true := by
  simp only [isKeyS, lookupA_insertA]
  split_ifs with h <;> simp [h]

theorem isKeyS_insertA_existing {k e : Nat} {st : State} {m : List (Nat × State)}
    (he : isKeyS e m = true) : isKeyS k (insertA e st m) = isKeyS k m := by
  simp only [isKeyS, lookupA_insertA]
  split_ifs with h
  · subst h
    simp only [isKeyS] at he
    simp [Option.isSome] at he ⊢
    cases hlk : lookupA e m <;> simp_all
  · rfl

theorem isKeyS_some {k : Nat} {m : List (Nat × State)} (h : isKeyS k m = true) :
    ∃ st, lookupA k m = some st := by
  simp only [isKeyS, Option.isSome] at h
  cases hlk : lookupA k m <;> simp_all

/-- All transition destinations of states in the table `m` satisfy `P`. -/
def DestsOk (m : List (Nat × State)) (P : Nat → Prop) : Prop :=
  ∀ p ∈ m, ∀ q ∈ p.2.outs, P q.1

theorem destsOk_mono {m : List (Nat × State)} {P Q : Nat → Prop}
    (h : ∀ d, P d → Q d) (hm : DestsOk m P) : DestsOk m Q :=
  fun p hp q hq => h _ (hm p hp q hq)

theorem destsOk_insertA {m : List (Nat × State)} {P : Nat → Prop} {k : Nat} {st : State}
    (hm : DestsOk m P) (hst : ∀ q ∈ st.outs, P q.1) :
    DestsOk (insertA k st m) P := by
  intro p hp q hq
  rcases mem_insertA hp with h | h
  · subst h; exact hst q hq
  · exact hm p h q hq

theorem mem_foldl_insertA {ends : List Nat} {outs : List (Nat × Transition)}
    {q : Nat × Transition}
    (h : q ∈ ends.foldl (fun o e => insertA e Transition.epsilon o) outs) :
    (∃ e ∈ ends, q = (e, Transition.epsilon)) ∨ q ∈ outs := by
  induction ends generalizing outs with
  | nil => exact Or.inr h
  | cons e rest ih =>
    simp only [List.foldl_cons] at h
    rcases ih h with h1 | h1
    · obtain ⟨e1, he1, hq⟩ := h1
      exact Or.inl ⟨e1, List.mem_cons_of_mem _ he1, hq⟩
    · rcases mem_insertA h1 with h2 | h2
      · exact Or.inl ⟨e, by simp, h2⟩
      · exact Or.inr h2

/-! ## Compiler invariants

`destInv` is the graph invariant of C10: every transition destination is a
key of the state table.  `fragOk`/`stackOk` say that all fragment starts
and ends on the compile stack are keys. -/

def destInv (g : NFAGraph) : Prop :=
  DestsOk g.states (fun d => isKeyS d g.states = true)

def fragOk (g : NFAGraph) (f : Frag) : Prop :=
  isKeyS f.start g.states = true ∧ ∀ e ∈ f.ends, isKeyS e g.states = true

def stackOk (g : NFAGraph) (stack : List Frag) : Prop := ∀ f ∈ stack, fragOk g f

/-- A character the compiler accepts without hitting its illegal-character
panic branch. -/
abbrev legalPost (c : Char) : Prop :=
  c = '.' ∨ c = '|' ∨ c = '?' ∨ c = '*' ∨ c = '+' ∨ isAlphanumeric c = true

theorem wireEnds_isSome {g : NFAGraph} {ends : List Nat} (dst : Nat) (t : Transition)
    (hends : ∀ e ∈ ends, isKeyS e g.states = true) :
    ∃ g1, wireEnds g ends dst t = some g1 := by
  induction ends generalizing g with
  | nil => exact ⟨g, rfl⟩
  | cons e rest ih =>
    obtain ⟨st, hst⟩ := isKeyS_some (hends e (by simp))
    have hkey : isKeyS e g.states = true := hends e (by simp)
    have hends2 : ∀ e1 ∈ rest,
        isKeyS e1 (insertA e { st with outs := insertA dst t st.outs } g.states) = true := by
      intro e1 he1
      rw [isKeyS_insertA_existing hkey]
      exact hends e1 (List.mem_cons_of_mem _ he1)
    obtain ⟨g1, hw⟩ := ih (g := { g with states := insertA e { st with outs := insertA dst t st.outs } g.states }) hends2
    exact ⟨g1, by simp only [wireEnds, hst]; exact hw⟩

theorem wireEnds_fields {g : NFAGraph} {ends : List Nat} {dst : Nat} {t : Transition}
    {g1 : NFAGraph} (h : wireEnds g ends dst t = some g1) :
    (∀ k, isKeyS k g1.states = isKeyS k g.states)
    ∧ g1.start = g.start ∧ g1.ends = g.ends ∧ g1.last_id = g.last_id := by
  induction ends generalizing g with
  | nil =>
    cases h
    exact ⟨fun _ => rfl, rfl, rfl, rfl⟩
  | cons e rest ih =>
    simp only [wireEnds] at h
    cases hst : lookupA e g.states with
    | none => rw [hst] at h; cases h
    | some st =>
      rw [hst] at h
      have hkey : isKeyS e g.states = true := by simp [isKeyS, hst]
      obtain ⟨hk, h1, h2, h3⟩ := ih h
      exact ⟨fun k => (hk k).trans (isKeyS_insertA_existing hkey), h1, h2, h3⟩

theorem wireEnds_destsOk {P : Nat → Prop} {g : NFAGraph} {ends : List Nat} {dst : Nat}
    {t : Transition} {g1 : NFAGraph} (h : wireEnds g ends dst t = some g1)
    (hP : DestsOk g.states P) (hdst : P dst) : DestsOk g1.states P := by
  induction ends generalizing g with
  | nil => cases h; exact hP
  | cons e rest ih =>
    simp only [wireEnds] at h
    cases hst : lookupA e g.states with
    | none => rw [hst] at h; cases h
    | some st =>
      rw [hst] at h
      refine ih h ?_
      apply destsOk_insertA hP
      intro q hq
      rcases mem_insertA hq with h1 | h1
      · subst h1; exact hdst
      · exact hP (e, st) (lookupA_mem hst) q h1

theorem wireStarEnds_isSome {g : NFAGraph} {ends : List Nat} (eId fStart : Nat)
    (hends : ∀ e ∈ ends, isKeyS e g.states = true) :
    ∃ g1, wireStarEnds g ends eId fStart = some g1 := by
  induction ends generalizing g with
  | nil => exact ⟨g, rfl⟩
  | cons e rest ih =>
    obtain ⟨st, hst⟩ := isKeyS_some (hends e (by simp))
    have hkey : isKeyS e g.states = true := hends e (by simp)
    have hends2 : ∀ e1 ∈ rest,
        isKeyS e1 (insertA e { st with outs := insertA fStart Transition.epsilon (insertA eId Transition.epsilon st.outs) } g.states) = true := by
      intro e1 he1
      rw [isKeyS_insertA_existing hkey]
      exact hends e1 (List.mem_cons_of_mem _ he1)
    obtain ⟨g1, hw⟩ := ih (g := { g with states := insertA e { st with outs := insertA fStart Transition.epsilon (insertA eId Transition.epsilon st.outs) } g.states }) hends2
    exact ⟨g1, by simp only [wireStarEnds, hst]; exact hw⟩

theorem wireStarEnds_fields {g : NFAGraph} {ends : List Nat} {eId fStart : Nat}
    {g1 : NFAGraph} (h : wireStarEnds g ends eId fStart = some g1) :
    (∀ k, isKeyS k g1.states = isKeyS k g.states)
    ∧ g1.start = g.start ∧ g1.ends = g.ends ∧ g1.last_id = g.last_id := by
  induction ends generalizing g with
  | nil =>
    cases h
    exact ⟨fun _ => rfl, rfl, rfl, rfl⟩
  | cons e rest ih =>
    simp only [wireStarEnds] at h
    cases hst : lookupA e g.states with
    | none => rw [hst] at h; cases h
    | some st =>
      rw [hst] at h
      have hkey : isKeyS e g.states = true := by simp [isKeyS, hst]
      obtain ⟨hk, h1, h2, h3⟩ := ih h
      exact ⟨fun k => (hk k).trans (isKeyS_insertA_existing hkey), h1, h2, h3⟩

theorem wireStarEnds_destsOk {P : Nat → Prop} {g : NFAGraph} {ends : List Nat}
    {eId fStart : Nat} {g1 : NFAGraph} (h : wireStarEnds g ends eId fStart = some g1)
    (hP : DestsOk g.states P) (hdst1 : P eId) (hdst2 : P fStart) : DestsOk g1.states P := by
  induction ends generalizing g with
  | nil => cases h; exact hP
  | cons e rest ih =>
    simp only [wireStarEnds] at h
    cases hst : lookupA e g.states with
    | none => rw [hst] at h; cases h
    | some st =>
      rw [hst] at h
      refine ih h ?_
      apply destsOk_insertA hP
      intro q hq
      rcases mem_insertA hq with h1 | h1
      · subst h1; exact hdst2
      · rcases mem_insertA h1 with h2 | h2
        · subst h2; exact hdst1
        · exact hP (e, st) (lookupA_mem hst) q h2

/-! Equation lemmas: the value of each compile branch once the outcomes of
its inner lookups and wirings are known. -/

theorem stepDot_eq {g : NFAGraph} {f2 f1 : Frag} {rest : List Frag} {g1 : NFAGraph}
    (hw : wireEnds g f1.ends f2.start Transition.epsilon = some g1) :
    stepDot g (f2 :: f1 :: rest) = CompStep.cont g1 (⟨f1.start, f2.ends⟩ :: rest) := by
  simp only [stepDot, hw]

theorem stepAlt_eq {g : NFAGraph} {f2 f1 : Frag} {rest : List Frag} {g2 g3 : NFAGraph}
    (hw1 : wireEnds { g with last_id := g.last_id + 2 } f1.ends (g.last_id + 1) Transition.epsilon = some g2)
    (hw2 : wireEnds g2 f2.ends (g.last_id + 1) Transition.epsilon = some g3) :
    stepAlt g (f2 :: f1 :: rest) =
      CompStep.cont
        { g3 with states := insertA (g.last_id + 1) ⟨g.last_id + 1, []⟩ (insertA g.last_id ⟨g.last_id, insertA f2.start Transition.epsilon (insertA f1.start Transition.epsilon [])⟩ g3.states) }
        (⟨g.last_id, [g.last_id + 1]⟩ :: rest) := by
  simp only [stepAlt, hw1, hw2]

theorem stepQm_eq {g : NFAGraph} {f : Frag} {rest : List Frag} {st : State}
    (hlk : lookupA f.start g.states = some st) :
    stepQm g (f :: rest) =
      CompStep.cont
        { g with states := insertA f.start { st with outs := f.ends.foldl (fun o e => insertA e Transition.epsilon o) st.outs } g.states }
        (f :: rest) := by
  simp only [stepQm, hlk]

theorem stepStar_eq {g : NFAGraph} {f : Frag} {rest : List Frag} {oldStart : State}
    {g3 : NFAGraph}
    (hlk : lookupA f.start g.states = some oldStart)
    (hw : wireStarEnds { g with last_id := g.last_id + 2, states := insertA f.start { oldStart with outs := f.ends.foldl (fun o e => insertA e Transition.epsilon o) oldStart.outs } g.states } f.ends (g.last_id + 1) f.start = some g3) :
    stepStar g (f :: rest) =
      CompStep.cont
        { g3 with states := insertA (g.last_id + 1) ⟨g.last_id + 1, []⟩ (insertA g.last_id ⟨g.last_id, insertA f.start Transition.epsilon []⟩ g3.states) }
        (⟨g.last_id, [g.last_id + 1]⟩ :: rest) := by
  simp only [stepStar, hlk, hw]

theorem stepPlus_eq {g : NFAGraph} {f : Frag} {rest : List Frag} {g2 : NFAGraph}
    (hw : wireStarEnds { g with last_id := g.last_id + 2 } f.ends (g.last_id + 1) f.start = some g2) :
    stepPlus g (f :: rest) =
      CompStep.cont
        { g2 with states := insertA (g.last_id + 1) ⟨g.last_id + 1, []⟩ (insertA g.last_id ⟨g.last_id, insertA f.start Transition.epsilon []⟩ g2.states) }
        (⟨g.last_id, [g.last_id + 1]⟩ :: rest) := by
  simp only [stepPlus, hw]

/-- What a successful (continuing) compile step guarantees: the invariants
are preserved, `start`/`ends` are untouched, and keys only accumulate. -/
abbrev StepOkCont (g g1 : NFAGraph) (st1 : List Frag) : Prop :=
  destInv g1 ∧ stackOk g1 st1 ∧ g1.start = g.start ∧ g1.ends = g.ends
  ∧ ∀ k, isKeyS k g.states = true → isKeyS k g1.states = true

theorem stepDot_spec {g : NFAGraph} {stack : List Frag}
    (hd : destInv g) (hs : stackOk g stack) :
    stepDot g stack = CompStep.early g
    ∨ ∃ g1 st1, stepDot g stack = CompStep.cont g1 st1 ∧ StepOkCont g g1 st1 := by
  rcases stack with _ | ⟨f2, _ | ⟨f1, rest⟩⟩
  · exact Or.inl rfl
  · exact Or.inl rfl
  · right
    have hf1 := hs f1 (by simp)
    have hf2 := hs f2 (by simp)
    obtain ⟨g1, hw⟩ := wireEnds_isSome f2.start Transition.epsilon hf1.2
    obtain ⟨hkeys, hstart, hends, hlast⟩ := wireEnds_fields hw
    have hP : DestsOk g1.states (fun d => isKeyS d g.states = true) :=
      wireEnds_destsOk hw hd hf2.1
    refine ⟨g1, ⟨f1.start, f2.ends⟩ :: rest, stepDot_eq hw, ?_, ?_, hstart, hends, ?_⟩
    · exact destsOk_mono (fun d h => by rw [hkeys]; exact h) hP
    · intro f hf
      rcases List.mem_cons.1 hf with h | h
      · subst h
        exact ⟨by rw [hkeys]; exact hf1.1, fun e he => by rw [hkeys]; exact hf2.2 e he⟩
      · have := hs f (by simp [h])
        exact ⟨by rw [hkeys]; exact this.1, fun e he => by rw [hkeys]; exact this.2 e he⟩
    · intro k hk; rw [hkeys]; exact hk

theorem stepAlt_spec {g : NFAGraph} {stack : List Frag}
    (hd : destInv g) (hs : stackOk g stack) :
    stepAlt g stack = CompStep.early g
    ∨ ∃ g1 st1, stepAlt g stack = CompStep.cont g1 st1 ∧ StepOkCont g g1 st1 := by
  rcases stack with _ | ⟨f2, _ | ⟨f1, rest⟩⟩
  · exact Or.inl rfl
  · exact Or.inl rfl
  · right
    have hf1 := hs f1 (by simp)
    have hf2 := hs f2 (by simp)
    have hgbs : ({ g with last_id := g.last_id + 2 } : NFAGraph).states = g.states := rfl
    obtain ⟨g2, hw1⟩ := wireEnds_isSome (g := { g with last_id := g.last_id + 2 })
      (g.last_id + 1) Transition.epsilon (by rw [hgbs]; exact hf1.2)
    obtain ⟨hkeys1, hstart1, hends1, hlast1⟩ := wireEnds_fields hw1
    have hP1 : DestsOk g2.states (fun d => isKeyS d g.states = true ∨ d = g.last_id + 1) :=
      wireEnds_destsOk hw1 (destsOk_mono (fun d h => Or.inl h) hd) (Or.inr rfl)
    obtain ⟨g3, hw2⟩ := wireEnds_isSome (g := g2) (g.last_id + 1)
      Transition.epsilon (fun e he => by rw [hkeys1, hgbs]; exact hf2.2 e he)
    obtain ⟨hkeys2, hstart2, hends2, hlast2⟩ := wireEnds_fields hw2
    have hP2 : DestsOk g3.states (fun d => isKeyS d g.states = true ∨ d = g.last_id + 1) :=
      wireEnds_destsOk hw2 hP1 (Or.inr rfl)
    set g4 : NFAGraph :=
      { g3 with states := insertA (g.last_id + 1) ⟨g.last_id + 1, []⟩ (insertA g.last_id ⟨g.last_id, insertA f2.start Transition.epsilon (insertA f1.start Transition.epsilon [])⟩ g3.states) } with hg4
    have hkeys4 : ∀ k, isKeyS k g.states = true → isKeyS k g4.states = true := by
      intro k hk
      exact (isKeyS_insertA _ _ _ _).2 (Or.inr ((isKeyS_insertA _ _ _ _).2 (Or.inr (by
        rw [hkeys2, hkeys1, hgbs]; exact hk))))
    have heId4 : isKeyS (g.last_id + 1) g4.states = true := (isKeyS_insertA _ _ _ _).2 (Or.inl rfl)
    have hsId4 : isKeyS g.last_id g4.states = true :=
      (isKeyS_insertA _ _ _ _).2 (Or.inr ((isKeyS_insertA _ _ _ _).2 (Or.inl rfl)))
    refine ⟨g4, ⟨g.last_id, [g.last_id + 1]⟩ :: rest, stepAlt_eq hw1 hw2, ?_, ?_,
      hstart2.trans hstart1, hends2.trans hends1, hkeys4⟩
    · intro p hp q hq
      rcases mem_insertA hp with h | h
      · cases h; simp at hq
      · rcases mem_insertA h with h1 | h1
        · cases h1
          rcases mem_insertA hq with h2 | h2
          · cases h2; exact hkeys4 _ hf2.1
          · rcases mem_insertA h2 with h3 | h3
            · cases h3; exact hkeys4 _ hf1.1
            · simp at h3
        · rcases hP2 p h1 q hq with h2 | h2
          · exact hkeys4 _ h2
          · rw [h2]; exact heId4
    · intro f hf
      rcases List.mem_cons.1 hf with h | h
      · subst h
        refine ⟨hsId4, fun e he => ?_⟩
        simp at he
        rw [he]; exact heId4
      · have := hs f (by simp [h])
        exact ⟨hkeys4 _ this.1, fun e he => hkeys4 _ (this.2 e he)⟩

theorem stepQm_spec {g : NFAGraph} {stack : List Frag}
    (hd : destInv g) (hs : stackOk g stack) :
    stepQm g stack = CompStep.early g
    ∨ ∃ g1 st1, stepQm g stack = CompStep.cont g1 st1 ∧ StepOkCont g g1 st1 := by
  rcases stack with _ | ⟨f, rest⟩
  · exact Or.inl rfl
  · right
    have hf := hs f (by simp)
    obtain ⟨st, hst⟩ := isKeyS_some hf.1
    have hkeys : ∀ k, isKeyS k (insertA f.start { st with outs := f.ends.foldl (fun o e => insertA e Transition.epsilon o) st.outs } g.states) = isKeyS k g.states :=
      fun k => isKeyS_insertA_existing hf.1
    refine ⟨_, f :: rest, stepQm_eq hst, ?_, ?_, rfl, rfl, fun k hk => by rw [hkeys]; exact hk⟩
    · intro p hp q hq
      rcases mem_insertA hp with h | h
      · cases h
        rcases mem_foldl_insertA hq with ⟨e, he, hqe⟩ | h1
        · rw [hqe]
          show isKeyS e _ = true
          rw [hkeys]; exact hf.2 e he
        · rw [hkeys]; exact hd (f.start, st) (lookupA_mem hst) q h1
      · rw [hkeys]; exact hd p h q hq
    · intro f1 hf1
      have := hs f1 hf1
      exact ⟨by rw [hkeys]; exact this.1, fun e he => by rw [hkeys]; exact this.2 e he⟩

theorem stepStar_spec {g : NFAGraph} {stack : List Frag}
    (hd : destInv g) (hs : stackOk g stack) :
    stepStar g stack = CompStep.early g
    ∨ ∃ g1 st1, stepStar g stack = CompStep.cont g1 st1 ∧ StepOkCont g g1 st1 := by
  rcases stack with _ | ⟨f, rest⟩
  · exact Or.inl rfl
  · right
    have hf := hs f (by simp)
    obtain ⟨st, hst⟩ := isKeyS_some hf.1
    set g2 : NFAGraph := { g with last_id := g.last_id + 2, states := insertA f.start { st with outs := f.ends.foldl (fun o e => insertA e Transition.epsilon o) st.outs } g.states } with hg2
    have hkeys2 : ∀ k, isKeyS k g2.states = isKeyS k g.states :=
      fun k => isKeyS_insertA_existing hf.1
    have hP2 : DestsOk g2.states (fun d => isKeyS d g.states = true ∨ d = g.last_id + 1) := by
      intro p hp q hq
      rcases mem_insertA hp with h | h
      · cases h
        rcases mem_foldl_insertA hq with ⟨e, he, hqe⟩ | h1
        · rw [hqe]; exact Or.inl (hf.2 e he)
        · exact Or.inl (hd (f.start, st) (lookupA_mem hst) q h1)
      · exact Or.inl (hd p h q hq)
    obtain ⟨g3, hw⟩ := wireStarEnds_isSome (g := g2) (g.last_id + 1)
      f.start (fun e he => by rw [hkeys2]; exact hf.2 e he)
    obtain ⟨hkeys3, hstart3, hends3, hlast3⟩ := wireStarEnds_fields hw
    have hP3 : DestsOk g3.states (fun d => isKeyS d g.states = true ∨ d = g.last_id + 1) :=
      wireStarEnds_destsOk hw hP2 (Or.inr rfl) (Or.inl hf.1)
    set g4 : NFAGraph :=
      { g3 with states := insertA (g.last_id + 1) ⟨g.last_id + 1, []⟩ (insertA g.last_id ⟨g.last_id, insertA f.start Transition.epsilon []⟩ g3.states) } with hg4
    have hkeys4 : ∀ k, isKeyS k g.states = true → isKeyS k g4.states = true := by
      intro k hk
      exact (isKeyS_insertA _ _ _ _).2 (Or.inr ((isKeyS_insertA _ _ _ _).2 (Or.inr (by
        rw [hkeys3, hkeys2]; exact hk))))
    have heId4 : isKeyS (g.last_id + 1) g4.states = true := (isKeyS_insertA _ _ _ _).2 (Or.inl rfl)
    have hsId4 : isKeyS g.last_id g4.states = true :=
      (isKeyS_insertA _ _ _ _).2 (Or.inr ((isKeyS_insertA _ _ _ _).2 (Or.inl rfl)))
    refine ⟨g4, ⟨g.last_id, [g.last_id + 1]⟩ :: rest, stepStar_eq hst hw, ?_, ?_,
      hstart3, hends3, hkeys4⟩
    · intro p hp q hq
      rcases mem_insertA hp with h | h
      · cases h; simp at hq
      · rcases mem_insertA h with h1 | h1
        · cases h1
          rcases mem_insertA hq with h2 | h2
          · cases h2; exact hkeys4 _ hf.1
          · simp at h2
        · rcases hP3 p h1 q hq with h2 | h2
          · exact hkeys4 _ h2
          · rw [h2]; exact heId4
    · intro f1 hf1
      rcases List.mem_cons.1 hf1 with h | h
      · subst h
        refine ⟨hsId4, fun e he => ?_⟩
        simp at he
        rw [he]; exact heId4
      · have := hs f1 (by simp [h])
        exact ⟨hkeys4 _ this.1, fun e he => hkeys4 _ (this.2 e he)⟩

theorem stepPlus_spec {g : NFAGraph} {stack : List Frag}
    (hd : destInv g) (hs : stackOk g stack) :
    stepPlus g stack = CompStep.early g
    ∨ ∃ g1 st1, stepPlus g stack = CompStep.cont g1 st1 ∧ StepOkCont g g1 st1 := by
  rcases stack with _ | ⟨f, rest⟩
  · exact Or.inl rfl
  · right
    have hf := hs f (by simp)
    have hgbs : ({ g with last_id := g.last_id + 2 } : NFAGraph).states = g.states := rfl
    obtain ⟨g2, hw⟩ := wireStarEnds_isSome (g := { g with last_id := g.last_id + 2 })
      (g.last_id + 1) f.start (by rw [hgbs]; exact hf.2)
    obtain ⟨hkeys2, hstart2, hends2, hlast2⟩ := wireStarEnds_fields hw
    have hP2 : DestsOk g2.states (fun d => isKeyS d g.states = true ∨ d = g.last_id + 1) :=
      wireStarEnds_destsOk hw (destsOk_mono (fun d h => Or.inl h) hd) (Or.inr rfl) (Or.inl hf.1)
    set g4 : NFAGraph :=
      { g2 with states := insertA (g.last_id + 1) ⟨g.last_id + 1, []⟩ (insertA g.last_id ⟨g.last_id, insertA f.start Transition.epsilon []⟩ g2.states) } with hg4
    have hkeys4 : ∀ k, isKeyS k g.states = true → isKeyS k g4.states = true := by
      intro k hk
      exact (isKeyS_insertA _ _ _ _).2 (Or.inr ((isKeyS_insertA _ _ _ _).2 (Or.inr (by
        rw [hkeys2, hgbs]; exact hk))))
    have heId4 : isKeyS (g.last_id + 1) g4.states = true := (isKeyS_insertA _ _ _ _).2 (Or.inl rfl)
    have hsId4 : isKeyS g.last_id g4.states = true :=
      (isKeyS_insertA _ _ _ _).2 (Or.inr ((isKeyS_insertA _ _ _ _).2 (Or.inl rfl)))
    refine ⟨g4, ⟨g.last_id, [g.last_id + 1]⟩ :: rest, stepPlus_eq hw, ?_, ?_,
      hstart2, hends2, hkeys4⟩
    · intro p hp q hq
      rcases mem_insertA hp with h | h
      · cases h; simp at hq
      · rcases mem_insertA h with h1 | h1
        · cases h1
          rcases mem_insertA hq with h2 | h2
          · cases h2; exact hkeys4 _ hf.1
          · simp at h2
        · rcases hP2 p h1 q hq with h2 | h2
          · exact hkeys4 _ h2
          · rw [h2]; exact heId4
    · intro f1 hf1
      rcases List.mem_cons.1 hf1 with h | h
      · subst h
        refine ⟨hsId4, fun e he => ?_⟩
        simp at he
        rw [he]; exact heId4
      · have := hs f1 (by simp [h])
        exact ⟨hkeys4 _ this.1, fun e he => hkeys4 _ (this.2 e he)⟩

theorem stepLit_spec {g : NFAGraph} {stack : List Frag} (ch : Char)
    (hd : destInv g) (hs : stackOk g stack) :
    ∃ g1 st1, stepLit g stack ch = CompStep.cont g1 st1 ∧ StepOkCont g g1 st1 := by
  set sId := g.last_id with hsId
  set eId := g.last_id + 1 with heId
  set g1 : NFAGraph := { g with last_id := g.last_id + 2, states := insertA eId ⟨eId, []⟩ (insertA sId ⟨sId, insertA eId (Transition.char [ch]) []⟩ g.states) } with hg1
  have hkeys : ∀ k, isKeyS k g.states = true → isKeyS k g1.states = true := by
    intro k hk
    exact (isKeyS_insertA _ _ _ _).2 (Or.inr ((isKeyS_insertA _ _ _ _).2 (Or.inr hk)))
  have heId1 : isKeyS eId g1.states = true := (isKeyS_insertA _ _ _ _).2 (Or.inl rfl)
  have hsId1 : isKeyS sId g1.states = true :=
    (isKeyS_insertA _ _ _ _).2 (Or.inr ((isKeyS_insertA _ _ _ _).2 (Or.inl rfl)))
  refine ⟨g1, ⟨sId, [eId]⟩ :: stack, rfl, ?_, ?_, rfl, rfl, hkeys⟩
  · intro p hp q hq
    rcases mem_insertA hp with h | h
    · cases h; simp at hq
    · rcases mem_insertA h with h1 | h1
      · cases h1
        rcases mem_insertA hq with h2 | h2
        · cases h2; exact heId1
        · simp at h2
      · exact hkeys _ (hd p h1 q hq)
  · intro f hf
    rcases List.mem_cons.1 hf with h | h
    · subst h
      refine ⟨hsId1, fun e he => ?_⟩
      simp at he
      rw [he]; exact heId1
    · have := hs f h
      exact ⟨hkeys _ this.1, fun e he => hkeys _ (this.2 e he)⟩

theorem branch_clauses {g : NFAGraph} {res : CompStep}
    (hspec : res = CompStep.early g
      ∨ ∃ g1 st1, res = CompStep.cont g1 st1 ∧ StepOkCont g g1 st1) :
    res ≠ CompStep.panicStep
    ∧ (∀ g1, res = CompStep.early g1 → g1 = g)
    ∧ (∀ g1 st1, res = CompStep.cont g1 st1 → StepOkCont g g1 st1) := by
  rcases hspec with h | ⟨g1, st1, heq, hok⟩
  · subst h
    refine ⟨by simp, ?_, ?_⟩
    · intro g1 hg1
      injection hg1 with h2
      exact h2.symm
    · intro g1 st1 h2
      cases h2
  · subst heq
    refine ⟨by simp, ?_, ?_⟩
    · intro g2 h2
      cases h2
    · intro g2 st2 h2
      injection h2 with ha hb
      subst ha
      subst hb
      exact hok

theorem compileStep_spec {g : NFAGraph} {stack : List Frag} (ch : Char)
    (hd : destInv g) (hs : stackOk g stack) :
    (compileStep g stack ch = CompStep.panicStep → ¬ legalPost ch)
    ∧ (∀ g1, compileStep g stack ch = CompStep.early g1 → g1 = g)
    ∧ (∀ g1 st1, compileStep g stack ch = CompStep.cont g1 st1 → StepOkCont g g1 st1) := by
  by_cases h1 : ch = '.'
  · have hstep : compileStep g stack ch = stepDot g stack := by simp [compileStep, h1]
    rw [hstep]
    obtain ⟨hnp, he, hc⟩ := branch_clauses (stepDot_spec hd hs)
    exact ⟨fun hp => (hnp hp).elim, he, hc⟩
  by_cases h2 : ch = '|'
  · have hstep : compileStep g stack ch = stepAlt g stack := by simp [compileStep, h1, h2]
    rw [hstep]
    obtain ⟨hnp, he, hc⟩ := branch_clauses (stepAlt_spec hd hs)
    exact ⟨fun hp => (hnp hp).elim, he, hc⟩
  by_cases h3 : ch = '?'
  · have hstep : compileStep g stack ch = stepQm g stack := by simp [compileStep, h1, h2, h3]
    rw [hstep]
    obtain ⟨hnp, he, hc⟩ := branch_clauses (stepQm_spec hd hs)
    exact ⟨fun hp => (hnp hp).elim, he, hc⟩
  by_cases h4 : ch = '*'
  · have hstep : compileStep g stack ch = stepStar g stack := by simp [compileStep, h1, h2, h3, h4]
    rw [hstep]
    obtain ⟨hnp, he, hc⟩ := branch_clauses (stepStar_spec hd hs)
    exact ⟨fun hp => (hnp hp).elim, he, hc⟩
  by_cases h5 : ch = '+'
  · have hstep : compileStep g stack ch = stepPlus g stack := by simp [compileStep, h1, h2, h3, h4, h5]
    rw [hstep]
    obtain ⟨hnp, he, hc⟩ := branch_clauses (stepPlus_spec hd hs)
    exact ⟨fun hp => (hnp hp).elim, he, hc⟩
  by_cases h6 : isAlphanumeric ch = true
  · have hstep : compileStep g stack ch = stepLit g stack ch := by
      simp [compileStep, h1, h2, h3, h4, h5, h6]
    rw [hstep]
    obtain ⟨g1, st1, heq, hok⟩ := stepLit_spec ch hd hs
    rw [heq]
    refine ⟨by simp, ?_, ?_⟩
    · intro g2 h
      cases h
    · intro g2 st2 h
      injection h with ha hb
      subst ha
      subst hb
      exact hok
  · have hstep : compileStep g stack ch = CompStep.panicStep := by
      simp [compileStep, h1, h2, h3, h4, h5, h6]
    rw [hstep]
    refine ⟨?_, ?_, ?_⟩
    · intro _ hlegal
      rcases hlegal with h | h | h | h | h | h
      exacts [h1 h, h2 h, h3 h, h4 h, h5 h, h6 h]
    · intro g1 h
      cases h
    · intro g1 st1 h
      cases h

theorem destInv_initGraph : destInv initGraph := by
  intro p hp
  simp [initGraph] at hp

theorem stackOk_nil (g : NFAGraph) : stackOk g [] := by
  intro f hf
  simp at hf

/-- The main invariant of the compile loop: along any run it preserves
`destInv` and `stackOk`, never changes `start`/`ends`, only accumulates
keys, and panics only on an illegal postfix character. -/
theorem compileFold_props (l : List Char) :
    ∀ (g0 : NFAGraph) (s0 : List Frag), destInv g0 → stackOk g0 s0 →
    (compileFold g0 s0 l = CompStep.panicStep → ¬ (∀ c ∈ l, legalPost c))
    ∧ (∀ g st, compileFold g0 s0 l = CompStep.cont g st →
        destInv g ∧ stackOk g st ∧ g.start = g0.start ∧ g.ends = g0.ends
        ∧ ∀ k, isKeyS k g0.states = true → isKeyS k g.states = true)
    ∧ (∀ g, compileFold g0 s0 l = CompStep.early g →
        destInv g ∧ g.start = g0.start ∧ g.ends = g0.ends
        ∧ ∀ k, isKeyS k g0.states = true → isKeyS k g.states = true) := by
  induction l with
  | nil =>
    intro g0 s0 hd hs
    refine ⟨?_, ?_, ?_⟩
    · intro h
      simp [compileFold] at h
    · intro g st h
      simp only [compileFold, CompStep.cont.injEq] at h
      obtain ⟨ha, hb⟩ := h
      subst ha
      subst hb
      exact ⟨hd, hs, rfl, rfl, fun _ hk => hk⟩
    · intro g h
      simp [compileFold] at h
  | cons c rest ih =>
    intro g0 s0 hd hs
    obtain ⟨hp, he, hc⟩ := compileStep_spec c hd hs
    cases hstep : compileStep g0 s0 c with
    | panicStep =>
      have hcf : compileFold g0 s0 (c :: rest) = CompStep.panicStep := by
        simp [compileFold, hstep]
      refine ⟨?_, ?_, ?_⟩
      · intro _ hlegal
        exact (hp hstep) (hlegal c (by simp))
      · intro g st h
        rw [hcf] at h
        cases h
      · intro g h
        rw [hcf] at h
        cases h
    | early g1 =>
      have hg1 : g1 = g0 := he g1 hstep
      have hcf : compileFold g0 s0 (c :: rest) = CompStep.early g1 := by
        simp [compileFold, hstep]
      refine ⟨?_, ?_, ?_⟩
      · intro h
        rw [hcf] at h
        cases h
      · intro g st h
        rw [hcf] at h
        cases h
      · intro g h
        rw [hcf] at h
        injection h with h2
        subst h2
        subst hg1
        exact ⟨hd, rfl, rfl, fun _ hk => hk⟩
    | cont g1 st1 =>
      obtain ⟨hd1, hs1, hstart1, hends1, hkeys1⟩ := hc g1 st1 hstep
      have hcf : compileFold g0 s0 (c :: rest) = compileFold g1 st1 rest := by
        simp [compileFold, hstep]
      obtain ⟨ihp, ihc, ihe⟩ := ih g1 st1 hd1 hs1
      refine ⟨?_, ?_, ?_⟩
      · intro h hlegal
        rw [hcf] at h
        exact ihp h (fun x hx => hlegal x (by simp [hx]))
      · intro g st h
        rw [hcf] at h
        obtain ⟨a1, a2, a3, a4, a5⟩ := ihc g st h
        exact ⟨a1, a2, a3.trans hstart1, a4.trans hends1, fun k hk => a5 k (hkeys1 k hk)⟩
      · intro g h
        rw [hcf] at h
        obtain ⟨a1, a2, a3, a4⟩ := ihe g h
        exact ⟨a1, a2.trans hstart1, a3.trans hends1, fun k hk => a4 k (hkeys1 k hk)⟩

/-- Splitting a compile run at any point of the token list. -/
theorem compileFold_append (g : NFAGraph) (s : List Frag) (l1 l2 : List Char) :
    compileFold g s (l1 ++ l2) =
      match compileFold g s l1 with
      | CompStep.cont g1 s1 => compileFold g1 s1 l2
      | CompStep.early g1 => CompStep.early g1
      | CompStep.panicStep => CompStep.panicStep := by
  induction l1 generalizing g s with
  | nil => rfl
  | cons c rest ih =>
    simp only [List.cons_append, compileFold]
    cases compileStep g s c <;> simp [ih]

/-- An operator token reached with insufficient fragment-stack depth, in
the sense of the source's preconditions. -/
def underflowAt (stack : List Frag) (ch : Char) : Prop :=
  ((ch = '.' ∨ ch = '|') ∧ stack.length < 2)
  ∨ ((ch = '?' ∨ ch = '*' ∨ ch = '+') ∧ stack = [])

theorem compileStep_underflow {g : NFAGraph} {stack : List Frag} {ch : Char}
    (h : underflowAt stack ch) : compileStep g stack ch = CompStep.early g := by
  rcases h with ⟨hch, hlen⟩ | ⟨hch, hnil⟩
  · rcases hch with rfl | rfl
    · have hred : compileStep g stack '.' = stepDot g stack := rfl
      rw [hred]
      rcases stack with _ | ⟨f, _ | ⟨f2, rest⟩⟩
      · rfl
      · rfl
      · simp only [List.length_cons] at hlen
        omega
    · have hred : compileStep g stack '|' = stepAlt g stack := rfl
      rw [hred]
      rcases stack with _ | ⟨f, _ | ⟨f2, rest⟩⟩
      · rfl
      · rfl
      · simp only [List.length_cons] at hlen
        omega
  · subst hnil
    rcases hch with rfl | rfl | rfl
    · rfl
    · rfl
    · rfl

/-! ## Converter invariants -/

/-- A character the converter accepts without hitting its
illegal-character panic branch. -/
abbrev legalPattern (c : Char) : Prop :=
  c = '(' ∨ c = ')' ∨ c = '|' ∨ c = '*' ∨ c = '+' ∨ c = '?' ∨ isAlphanumeric c = true

/-- The emitted output is empty or starts with a literal. -/
def headOk : List Char → Prop
  | [] => True
  | c :: _ => isAlphanumeric c = true

/-- Loop invariant of `re2post`: the output so far starts with a literal,
contains only characters the compiler accepts, and is empty only while both
counters are zero. -/
def ConvInv (st : ConvSt) : Prop :=
  headOk st.acc ∧ (∀ c ∈ st.acc, legalPost c)
  ∧ (st.acc = [] → st.natom = 0 ∧ st.nalt = 0)

theorem headOk_append {acc : List Char} (t : List Char) (h : headOk acc)
    (hne : acc ≠ []) : headOk (acc ++ t) := by
  cases acc with
  | nil => exact absurd rfl hne
  | cons c rest => exact h

theorem flushConcat_eq : ∀ (n : Nat) (acc : List Char),
    flushConcat n acc = (if n = 0 then 0 else 1, acc ++ List.replicate (n - 1) '.')
  | 0, acc => by simp [flushConcat]
  | 1, acc => by simp [flushConcat]
  | n + 2, acc => by
    rw [flushConcat, flushConcat_eq (n + 1) (acc ++ ['.'])]
    simp [List.replicate_succ]

theorem flushAlt_eq : ∀ (n : Nat) (acc : List Char),
    flushAlt n acc = acc ++ List.replicate n '|'
  | 0, acc => by simp [flushAlt]
  | n + 1, acc => by
    rw [flushAlt, flushAlt_eq n (acc ++ ['|'])]
    simp [List.replicate_succ]

theorem replicate_legal (n : Nat) (c : Char) (h : legalPost c) :
    ∀ x ∈ List.replicate n c, legalPost x := by
  intro x hx
  rw [List.eq_of_mem_replicate hx]
  exact h

theorem convStep_illegal {st : ConvSt} {c : Char} (h : ¬ legalPattern c) :
    convStep st c = CStep.panicStep := by
  have h1 : ¬ c = '(' := fun hc => h (Or.inl hc)
  have h2 : ¬ c = ')' := fun hc => h (Or.inr (Or.inl hc))
  have h3 : ¬ c = '|' := fun hc => h (Or.inr (Or.inr (Or.inl hc)))
  have h4 : ¬ c = '*' := fun hc => h (Or.inr (Or.inr (Or.inr (Or.inl hc))))
  have h5 : ¬ c = '+' := fun hc => h (Or.inr (Or.inr (Or.inr (Or.inr (Or.inl hc)))))
  have h6 : ¬ c = '?' := fun hc => h (Or.inr (Or.inr (Or.inr (Or.inr (Or.inr (Or.inl hc))))))
  have h7 : ¬ isAlphanumeric c = true :=
    fun hc => h (Or.inr (Or.inr (Or.inr (Or.inr (Or.inr (Or.inr hc))))))
  simp [convStep, h1, h2, h3, h4, h5, h6, h7]

theorem convStep_inv {st : ConvSt} {c : Char} {st1 : ConvSt}
    (hinv : ConvInv st) (h : convStep st c = CStep.cont st1) :
    ConvInv st1
    ∧ (st1.acc ≠ [] ∨ st1.paren ≠ [] ∨ st1.natom ≥ 1 ∨ st1.nalt ≥ 1) := by
  obtain ⟨hhead, hleg, hzero⟩ := hinv
  by_cases h1 : c = '('
  · simp only [convStep, h1, if_true, eq_self_iff_true] at h
    by_cases hn : st.natom > 1
    · have hne : st.acc ≠ [] := by
        intro he
        rw [(hzero he).1] at hn
        omega
      rw [if_pos hn] at h
      injection h with h
      subst h
      refine ⟨⟨headOk_append _ hhead hne, ?_, by simp⟩, Or.inr (Or.inl (by simp))⟩
      intro x hx
      rcases List.mem_append.1 hx with hx | hx
      · exact hleg x hx
      · simp at hx
        rw [hx]
        exact Or.inl rfl
    · rw [if_neg hn] at h
      injection h with h
      subst h
      exact ⟨⟨hhead, hleg, fun _ => ⟨rfl, rfl⟩⟩, Or.inr (Or.inl (by simp))⟩
  by_cases h2 : c = '|'
  · simp only [convStep, h1, h2, if_false, if_true, eq_self_iff_true] at h
    by_cases hn : st.natom = 0
    · rw [if_pos hn] at h
      cases h
    · rw [if_neg hn] at h
      have hne : st.acc ≠ [] := fun he => hn (hzero he).1
      rw [flushConcat_eq] at h
      injection h with h
      subst h
      refine ⟨⟨headOk_append _ hhead hne, ?_, by simp [hne]⟩, Or.inr (Or.inr (Or.inr (by simp)))⟩
      intro x hx
      rcases List.mem_append.1 hx with hx | hx
      · exact hleg x hx
      · exact replicate_legal _ _ (Or.inl rfl) x hx
  by_cases h3 : c = ')'
  · simp only [convStep, h1, h2, h3, if_false, if_true, eq_self_iff_true] at h
    cases hp : st.paren with
    | nil =>
      rw [hp] at h
      cases h
    | cons pr rest =>
      obtain ⟨pn, pa⟩ := pr
      rw [hp] at h
      by_cases hn : st.natom = 0
      · simp only [if_pos hn] at h
        cases h
      · simp only [if_neg hn] at h
        have hne : st.acc ≠ [] := fun he => hn (hzero he).1
        rw [flushConcat_eq, flushAlt_eq] at h
        injection h with h
        subst h
        refine ⟨⟨?_, ?_, ?_⟩, Or.inr (Or.inr (Or.inl (by simp)))⟩
        · exact headOk_append _ (headOk_append _ hhead hne) (by simp [hne])
        · intro x hx
          rcases List.mem_append.1 hx with hx | hx
          · rcases List.mem_append.1 hx with hx | hx
            · exact hleg x hx
            · exact replicate_legal _ _ (Or.inl rfl) x hx
          · exact replicate_legal _ _ (Or.inr (Or.inl rfl)) x hx
        · simp [hne]
  by_cases h4 : c = '*' ∨ c = '+' ∨ c = '?'
  · have hred : convStep st c = if st.natom = 0 then CStep.errStep
        else CStep.cont { st with acc := st.acc ++ [c] } := by
      rcases h4 with rfl | rfl | rfl <;> rfl
    rw [hred] at h
    by_cases hn : st.natom = 0
    · rw [if_pos hn] at h
      cases h
    · rw [if_neg hn] at h
      have hne : st.acc ≠ [] := fun he => hn (hzero he).1
      injection h with h
      subst h
      refine ⟨⟨headOk_append _ hhead hne, ?_, by simp⟩, Or.inl (by simp)⟩
      intro x hx
      rcases List.mem_append.1 hx with hx | hx
      · exact hleg x hx
      · simp at hx
        subst hx
        rcases h4 with rfl | rfl | rfl
        · exact Or.inr (Or.inr (Or.inr (Or.inl rfl)))
        · exact Or.inr (Or.inr (Or.inr (Or.inr (Or.inl rfl))))
        · exact Or.inr (Or.inr (Or.inl rfl))
  by_cases h5 : isAlphanumeric c = true
  · have h4a : ¬ c = '*' := fun hc => h4 (Or.inl hc)
    have h4b : ¬ c = '+' := fun hc => h4 (Or.inr (Or.inl hc))
    have h4c : ¬ c = '?' := fun hc => h4 (Or.inr (Or.inr hc))
    simp only [convStep, h1, h2, h3, h4a, h4b, h4c, h5, if_false, if_true,
      or_self, false_or, or_false] at h
    by_cases hn : st.natom > 1
    · have hne : st.acc ≠ [] := by
        intro he
        rw [(hzero he).1] at hn
        omega
      rw [if_pos hn] at h
      injection h with h
      subst h
      refine ⟨⟨?_, ?_, by simp⟩, Or.inl (by simp)⟩
      · show headOk ((st.acc ++ ['.']) ++ [c])
        exact headOk_append _ (headOk_append _ hhead hne) (by simp [hne])
      · intro x hx
        rcases List.mem_append.1 hx with hx | hx
        · rcases List.mem_append.1 hx with hx | hx
          · exact hleg x hx
          · simp at hx
            rw [hx]
            exact Or.inl rfl
        · simp at hx
          rw [hx]
          exact Or.inr (Or.inr (Or.inr (Or.inr (Or.inr h5))))
    · rw [if_neg hn] at h
      injection h with h
      subst h
      refine ⟨⟨?_, ?_, by simp⟩, Or.inl (by simp)⟩
      · cases hacc : st.acc with
        | nil => simpa [headOk] using h5
        | cons c0 t =>
          rw [← hacc]
          exact headOk_append _ hhead (by simp [hacc])
      · intro x hx
        rcases List.mem_append.1 hx with hx | hx
        · exact hleg x hx
        · simp at hx
          rw [hx]
          exact Or.inr (Or.inr (Or.inr (Or.inr (Or.inr h5))))
  · rw [convStep_illegal (fun hl => ?_)] at h
    · cases h
    · rcases hl with hc | hc | hc | hc | hc | hc | hc
      exacts [h1 hc, h3 hc, h2 hc, h4 (Or.inl hc), h4 (Or.inr (Or.inl hc)),
        h4 (Or.inr (Or.inr hc)), h5 hc]

theorem convFold_cont {l : List Char} : ∀ {st st1 : ConvSt},
    ConvInv st → convFold st l = CStep.cont st1 →
    ConvInv st1
    ∧ (∀ c ∈ l, legalPattern c)
    ∧ (l ≠ [] → (st1.acc ≠ [] ∨ st1.paren ≠ [] ∨ st1.natom ≥ 1 ∨ st1.nalt ≥ 1)) := by
  induction l with
  | nil =>
    intro st st1 hinv h
    simp only [convFold, CStep.cont.injEq] at h
    subst h
    exact ⟨hinv, by simp, fun hne => absurd rfl hne⟩
  | cons c rest ih =>
    intro st st1 hinv h
    simp only [convFold] at h
    cases hstep : convStep st c with
    | errStep =>
      rw [hstep] at h
      cases h
    | panicStep =>
      rw [hstep] at h
      cases h
    | cont st2 =>
      rw [hstep] at h
      obtain ⟨hinv2, hD2⟩ := convStep_inv hinv hstep
      obtain ⟨hinv1, hlegal, hD1⟩ := ih hinv2 h
      have hlegc : legalPattern c := by
        by_contra hc
        rw [convStep_illegal hc] at hstep
        cases hstep
      refine ⟨hinv1, ?_, fun _ => ?_⟩
      · intro x hx
        rcases List.mem_cons.1 hx with hx | hx
        · rw [hx]; exact hlegc
        · exact hlegal x hx
      · cases hrest : rest with
        | nil =>
          subst hrest
          simp only [convFold, CStep.cont.injEq] at h
          subst h
          exact hD2
        | cons r rs =>
          exact hD1 (by simp [hrest])

theorem convInv_init : ConvInv ⟨[], [], 0, 0⟩ :=
  ⟨trivial, by simp, fun _ => ⟨rfl, rfl⟩⟩

/-- Structure of a successful conversion: the postfix output contains only
characters the compiler accepts, and for a nonempty pattern it is nonempty
and starts with a literal. -/
theorem re2post_ok_props {p post : List Char} (h : re2post p = ConvOut.ok post) :
    (∀ c ∈ post, legalPost c)
    ∧ (∀ c ∈ p, legalPattern c)
    ∧ (p ≠ [] → ∃ c0 t, post = c0 :: t ∧ isAlphanumeric c0 = true) := by
  unfold re2post at h
  cases hfold : convFold ⟨[], [], 0, 0⟩ p with
  | errStep =>
    rw [hfold] at h
    cases h
  | panicStep =>
    rw [hfold] at h
    cases h
  | cont st =>
    rw [hfold] at h
    replace h : (if st.paren = [] then ConvOut.ok (flushAlt st.nalt (flushConcat st.natom st.acc).2) else ConvOut.err) = ConvOut.ok post := h
    obtain ⟨⟨hhead, hleg, hzero⟩, hlegal, hD⟩ := convFold_cont convInv_init hfold
    by_cases hp : st.paren = []
    · rw [if_pos hp] at h
      rw [flushConcat_eq, flushAlt_eq] at h
      injection h with h
      refine ⟨?_, hlegal, ?_⟩
      · intro x hx
        rw [← h] at hx
        rcases List.mem_append.1 hx with hx | hx
        · rcases List.mem_append.1 hx with hx | hx
          · exact hleg x hx
          · exact replicate_legal _ _ (Or.inl rfl) x hx
        · exact replicate_legal _ _ (Or.inr (Or.inl rfl)) x hx
      · intro hpne
        have hacc : st.acc ≠ [] := by
          intro he
          obtain ⟨hn0, ha0⟩ := hzero he
          rcases hD hpne with hc | hc | hc | hc
          · exact hc he
          · exact hc hp
          · omega
          · omega
        cases hacc2 : st.acc with
        | nil => exact absurd hacc2 hacc
        | cons c0 t =>
          refine ⟨c0, t ++ List.replicate (st.natom - 1) '.' ++ List.replicate st.nalt '|', ?_, ?_⟩
          · rw [← h, hacc2]
            simp
          · have := hhead
            rw [hacc2] at this
            exact this
    · rw [if_neg hp] at h
      cases h

/-- C4 amended: a pattern containing an illegal character never converts
successfully — the conversion either panics (when the illegal character is
reached) or fails earlier with a recoverable parse error. -/
theorem c4_amended_illegal_never_ok (p : List Char)
    (h : ∃ c ∈ p, ¬ legalPattern c) :
    re2post p = ConvOut.panicked ∨ re2post p = ConvOut.err := by
  cases hout : re2post p with
  | panicked => exact Or.inl rfl
  | err => exact Or.inr rfl
  | ok post =>
    obtain ⟨c, hc, hcl⟩ := h
    exact absurd ((re2post_ok_props hout).2.1 c hc) hcl

theorem c4_witness :
    (∃ c ∈ ['#'], ¬ legalPattern c)
    ∧ (re2post ['#'] = ConvOut.panicked ∨ re2post ['#'] = ConvOut.err) :=
  ⟨⟨'#', by simp, by decide⟩, c4_amended_illegal_never_ok ['#'] ⟨'#', by simp, by decide⟩⟩

/-! ## Matcher lemmas

The matcher never panics on a graph satisfying `destInv` whose start state
exists; the key step is that the closure loop's fuel (chosen in `closure`)
is sufficient, because every queue entry beyond the initial set corresponds
to a distinct transition destination not yet in the closure set. -/

theorem epsAdd_spec : ∀ (outs : List (Nat × Transition)) (cs q : List Nat),
    ∃ l, epsAdd cs q outs = (cs ++ l, q ++ l) ∧ l.Nodup
      ∧ ∀ d ∈ l, d ∉ cs ∧ (d, Transition.epsilon) ∈ outs := by
  intro outs
  induction outs with
  | nil =>
    intro cs q
    exact ⟨[], by simp [epsAdd], List.nodup_nil, by simp⟩
  | cons dt outs ih =>
    obtain ⟨d, t⟩ := dt
    intro cs q
    cases t with
    | char chs =>
      obtain ⟨l, heq, hnd, hmem⟩ := ih cs q
      exact ⟨l, by simp [epsAdd, heq], hnd,
        fun d1 hd1 => ⟨(hmem d1 hd1).1, List.mem_cons_of_mem _ (hmem d1 hd1).2⟩⟩
    | epsilon =>
      have hred : epsAdd cs q ((d, Transition.epsilon) :: outs)
          = if cs.contains d = true then epsAdd cs q outs
            else epsAdd (cs ++ [d]) (q ++ [d]) outs := rfl
      by_cases hc : cs.contains d = true
      · obtain ⟨l, heq, hnd, hmem⟩ := ih cs q
        exact ⟨l, by rw [hred, if_pos hc, heq], hnd,
          fun d1 hd1 => ⟨(hmem d1 hd1).1, List.mem_cons_of_mem _ (hmem d1 hd1).2⟩⟩
      · have hdcs : d ∉ cs := by simpa using hc
        obtain ⟨l, heq, hnd, hmem⟩ := ih (cs ++ [d]) (q ++ [d])
        refine ⟨d :: l, ?_, ?_, ?_⟩
        · rw [hred, if_neg hc, heq]
          simp
        · exact List.nodup_cons.2 ⟨fun hdl => (hmem d hdl).1 (by simp), hnd⟩
        · intro d1 hd1
          rcases List.mem_cons.1 hd1 with rfl | hd1
          · exact ⟨hdcs, by simp⟩
          · exact ⟨fun hd1cs => (hmem d1 hd1).1 (by simp [hd1cs]),
              List.mem_cons_of_mem _ (hmem d1 hd1).2⟩

/-- Destinations not yet collected into the closure set. -/
def missing (g : NFAGraph) (cs : List Nat) : Nat :=
  ((destsList g).dedup.filter (fun d => decide (d ∉ cs))).length

theorem filter_snoc_count {U cs : List Nat} {d : Nat} (hU : U.Nodup) (hd : d ∈ U)
    (hnc : d ∉ cs) :
    (U.filter (fun x => decide (x ∉ cs ++ [d]))).length + 1
      = (U.filter (fun x => decide (x ∉ cs))).length := by
  induction U with
  | nil => cases hd
  | cons u U ih =>
    have hu : u ∉ U := (List.nodup_cons.1 hU).1
    have hU2 : U.Nodup := (List.nodup_cons.1 hU).2
    rcases List.mem_cons.1 hd with heq | hd2
    · rw [← heq]
      have hu2 : d ∉ U := by rw [heq]; exact hu
      rw [List.filter_cons, List.filter_cons, if_neg (by simp), if_pos (by simpa using hnc)]
      have hcong : U.filter (fun x => decide (x ∉ cs ++ [d])) = U.filter (fun x => decide (x ∉ cs)) := by
        apply List.filter_congr
        intro x hx
        have hxu : x ≠ d := fun he => hu2 (he ▸ hx)
        simp [hxu]
      rw [hcong]
      simp
    · have hud : u ≠ d := fun he => hu (he ▸ hd2)
      rw [List.filter_cons, List.filter_cons]
      by_cases hucs : u ∈ cs
      · rw [if_neg (by simp [hucs]), if_neg (by simp [hucs])]
        exact ih hU2 hd2
      · rw [if_pos (by simp [hucs, hud]), if_pos (by simpa using hucs)]
        simp only [List.length_cons]
        rw [← ih hU2 hd2]

theorem missing_snoc {g : NFAGraph} {cs : List Nat} {d : Nat}
    (hd : d ∈ destsList g) (hnc : d ∉ cs) :
    missing g (cs ++ [d]) + 1 = missing g cs :=
  filter_snoc_count (List.nodup_dedup _) (List.mem_dedup.2 hd) hnc

theorem missing_append {g : NFAGraph} : ∀ {l : List Nat} {cs : List Nat},
    l.Nodup → (∀ d ∈ l, d ∈ destsList g ∧ d ∉ cs) →
    missing g (cs ++ l) + l.length = missing g cs := by
  intro l
  induction l with
  | nil =>
    intro cs _ _
    simp
  | cons d l ih =>
    intro cs hnd hsub
    have h1 : missing g ((cs ++ [d]) ++ l) + l.length = missing g (cs ++ [d]) := by
      apply ih (List.nodup_cons.1 hnd).2
      intro d1 hd1
      refine ⟨(hsub d1 (List.mem_cons_of_mem _ hd1)).1, ?_⟩
      intro hmem
      rcases List.mem_append.1 hmem with hmem | hmem
      · exact (hsub d1 (List.mem_cons_of_mem _ hd1)).2 hmem
      · simp at hmem
        subst hmem
        exact (List.nodup_cons.1 hnd).1 hd1
    have h2 : missing g (cs ++ [d]) + 1 = missing g cs :=
      missing_snoc (hsub d (by simp)).1 (hsub d (by simp)).2
    have h3 : (cs ++ [d]) ++ l = cs ++ (d :: l) := by simp
    rw [h3] at h1
    simp only [List.length_cons]
    omega

theorem missing_le (g : NFAGraph) (cs : List Nat) :
    missing g cs ≤ (destsList g).length :=
  le_trans (List.length_filter_le _ _) ((List.dedup_sublist _).length_le)

theorem mem_destsList {g : NFAGraph} {k : Nat} {st : State} {d : Nat} {t : Transition}
    (hst : (k, st) ∈ g.states) (hdt : (d, t) ∈ st.outs) : d ∈ destsList g := by
  unfold destsList
  rw [List.mem_flatten]
  exact ⟨st.outs.map Prod.fst, List.mem_map.2 ⟨(k, st), hst, rfl⟩,
    List.mem_map.2 ⟨(d, t), hdt, rfl⟩⟩

theorem closureLoop_some {g : NFAGraph} (hdest : destInv g) : ∀ (fuel : Nat)
    (cs q : List Nat),
    (∀ x ∈ cs, isKeyS x g.states = true) →
    (∀ x ∈ q, isKeyS x g.states = true) →
    fuel ≥ q.length + missing g cs + 1 →
    ∃ out, closureLoop g fuel cs q = some out
      ∧ ∀ x ∈ out, isKeyS x g.states = true := by
  intro fuel
  induction fuel with
  | zero =>
    intro cs q _ _ hfuel
    omega
  | succ fuel ih =>
    intro cs q hcs hq hfuel
    cases q with
    | nil => exact ⟨cs, rfl, hcs⟩
    | cons sid rest =>
      obtain ⟨st, hlk⟩ := isKeyS_some (hq sid (by simp))
      obtain ⟨l, heps, hnd, hmem⟩ := epsAdd_spec st.outs cs rest
      have hlkeys : ∀ d ∈ l, isKeyS d g.states = true := by
        intro d hd
        exact hdest (sid, st) (lookupA_mem hlk) (d, Transition.epsilon) (hmem d hd).2
      have hldest : ∀ d ∈ l, d ∈ destsList g ∧ d ∉ cs := by
        intro d hd
        exact ⟨mem_destsList (lookupA_mem hlk) (hmem d hd).2, (hmem d hd).1⟩
      have hmiss : missing g (cs ++ l) + l.length = missing g cs :=
        missing_append hnd hldest
      obtain ⟨out, hloop, hout⟩ := ih (cs ++ l) (rest ++ l)
        (by
          intro x hx
          rcases List.mem_append.1 hx with hx | hx
          · exact hcs x hx
          · exact hlkeys x hx)
        (by
          intro x hx
          rcases List.mem_append.1 hx with hx | hx
          · exact hq x (List.mem_cons_of_mem _ hx)
          · exact hlkeys x hx)
        (by
          simp only [List.length_append, List.length_cons] at hfuel ⊢
          omega)
      refine ⟨out, ?_, hout⟩
      simp only [closureLoop, hlk, heps]
      exact hloop

theorem closure_some {g : NFAGraph} (hdest : destInv g) {cs : List Nat}
    (hcs : ∀ x ∈ cs, isKeyS x g.states = true) :
    ∃ out, closure g cs = some out ∧ ∀ x ∈ out, isKeyS x g.states = true := by
  apply closureLoop_some hdest _ cs cs hcs hcs
  have := missing_le g cs
  omega

theorem closureLoop_mem_key {g : NFAGraph} : ∀ {fuel : Nat} {cs q out : List Nat},
    closureLoop g fuel cs q = some out →
    (∀ x ∈ cs, x ∈ q ∨ isKeyS x g.states = true) →
    ∀ x ∈ out, isKeyS x g.states = true := by
  intro fuel
  induction fuel with
  | zero =>
    intro cs q out h
    cases h
  | succ fuel ih =>
    intro cs q out h hcs
    cases q with
    | nil =>
      simp only [closureLoop, Option.some.injEq] at h
      subst h
      intro x hx
      rcases hcs x hx with hq | hk
      · cases hq
      · exact hk
    | cons sid rest =>
      simp only [closureLoop] at h
      cases hlk : lookupA sid g.states with
      | none =>
        rw [hlk] at h
        cases h
      | some st =>
        rw [hlk] at h
        replace h : closureLoop g fuel (epsAdd cs rest st.outs).1 (epsAdd cs rest st.outs).2 = some out := h
        obtain ⟨l, heps, hnd, hmem⟩ := epsAdd_spec st.outs cs rest
        rw [heps] at h
        refine ih h ?_
        intro x hx
        rcases List.mem_append.1 hx with hx | hx
        · rcases hcs x hx with hq | hk
          · rcases List.mem_cons.1 hq with rfl | hq2
            · exact Or.inr (by simp [isKeyS, hlk])
            · exact Or.inl (List.mem_append.2 (Or.inl hq2))
          · exact Or.inr hk
        · exact Or.inl (List.mem_append.2 (Or.inr hx))

theorem closure_mem_key {g : NFAGraph} {cs out : List Nat}
    (h : closure g cs = some out) : ∀ x ∈ out, isKeyS x g.states = true :=
  closureLoop_mem_key h (fun _ hx => Or.inl hx)

theorem scanOuts_sub {c : Char} : ∀ {outs : List (Nat × Transition)} {acc : List Nat}
    {x : Nat}, x ∈ scanOuts c outs acc → x ∈ acc ∨ ∃ t, (x, t) ∈ outs := by
  intro outs
  induction outs with
  | nil =>
    intro acc x hx
    exact Or.inl hx
  | cons dt outs ih =>
    obtain ⟨d, t⟩ := dt
    intro acc x hx
    cases t with
    | epsilon =>
      rcases ih hx with h | ⟨t1, h⟩
      · exact Or.inl h
      · exact Or.inr ⟨t1, List.mem_cons_of_mem _ h⟩
    | char chs =>
      by_cases hc : chs.contains c = true
      · simp only [scanOuts, hc, if_true] at hx
        rcases ih hx with h | ⟨t1, h⟩
        · rcases List.mem_append.1 h with h | h
          · exact Or.inl h
          · simp at h
            subst h
            exact Or.inr ⟨Transition.char chs, by simp⟩
        · exact Or.inr ⟨t1, List.mem_cons_of_mem _ h⟩
      · simp only [scanOuts, hc, if_false] at hx
        rcases ih hx with h | ⟨t1, h⟩
        · exact Or.inl h
        · exact Or.inr ⟨t1, List.mem_cons_of_mem _ h⟩

theorem move2Go_some {g : NFAGraph} {c : Char} (hdest : destInv g) :
    ∀ {cur a : List Nat},
    (∀ x ∈ cur, isKeyS x g.states = true) →
    (∀ x ∈ a, isKeyS x g.states = true) →
    ∃ out, move2Go g c cur a = some out ∧ ∀ x ∈ out, isKeyS x g.states = true := by
  intro cur
  induction cur with
  | nil =>
    intro acc _ hacc
    exact ⟨acc, rfl, hacc⟩
  | cons sid rest ih =>
    intro acc hcur hacc
    obtain ⟨st, hlk⟩ := isKeyS_some (hcur sid (by simp))
    obtain ⟨out, hgo, hout⟩ := ih (a := scanOuts c st.outs acc)
      (fun x hx => hcur x (List.mem_cons_of_mem _ hx))
      (by
        intro x hx
        rcases scanOuts_sub hx with h | ⟨t, h⟩
        · exact hacc x h
        · exact hdest (sid, st) (lookupA_mem hlk) (x, t) h)
    refine ⟨out, ?_, hout⟩
    simp only [move2Go, hlk]
    exact hgo

theorem move2_some {g : NFAGraph} {c : Char} (hdest : destInv g) {cur : List Nat}
    (hcur : ∀ x ∈ cur, isKeyS x g.states = true) :
    ∃ out, move2 g c cur = some out ∧ ∀ x ∈ out, isKeyS x g.states = true :=
  move2Go_some hdest hcur (by simp)

theorem acceptScan_some {g : NFAGraph} {L : Bool} : ∀ {set : List Nat},
    (∀ x ∈ set, isKeyS x g.states = true) → ∃ b, acceptScan g L set = some b := by
  intro set
  induction set with
  | nil => exact fun _ => ⟨false, rfl⟩
  | cons sid rest ih =>
    intro hkeys
    obtain ⟨st, hlk⟩ := isKeyS_some (hkeys sid (by simp))
    by_cases hacc : st.outs.isEmpty && L
    · exact ⟨true, by simp [acceptScan, hlk, hacc]⟩
    · obtain ⟨b, hb⟩ := ih (fun x hx => hkeys x (List.mem_cons_of_mem _ hx))
      refine ⟨b, ?_⟩
      simp only [acceptScan, hlk]
      rw [if_neg hacc]
      exact hb

theorem matchLoop_some {g : NFAGraph} (hdest : destInv g) (total : Nat) :
    ∀ (cs : List Char) (i : Nat) (next : List Nat),
    (∀ x ∈ next, isKeyS x g.states = true) →
    ∃ b, matchLoop g total i next cs = some b := by
  intro cs
  induction cs with
  | nil => exact fun _ _ _ => ⟨false, rfl⟩
  | cons c rest ih =>
    intro i next hnext
    obtain ⟨cur, hmv, hcur⟩ := move2_some (c := c) hdest hnext
    obtain ⟨next2, hcl, hnext2⟩ := closure_some hdest hcur
    by_cases hemp : next2.isEmpty
    · exact ⟨false, by simp [matchLoop, hmv, hcl, hemp]⟩
    · obtain ⟨b, hb⟩ := acceptScan_some (L := decide (i = total - 1)) hnext2
      cases b with
      | true => exact ⟨true, by simp [matchLoop, hmv, hcl, hemp, hb]⟩
      | false =>
        obtain ⟨b2, hb2⟩ := ih (i + 1) next2 hnext2
        refine ⟨b2, ?_⟩
        simp only [matchLoop, hmv, hcl]
        rw [if_neg (by simpa using hemp), hb, hb2]

/-- The matcher is total on any graph whose start state exists and whose
transition destinations all exist. -/
theorem is_match_total {g : NFAGraph} (hdest : destInv g)
    (hstart : isKeyS g.start g.states = true) (s : List Char) :
    ∃ b, is_match g s = some b := by
  have hsing : ∀ x ∈ [g.start], isKeyS x g.states = true := by
    intro x hx
    simp at hx
    subst hx
    exact hstart
  obtain ⟨next, hcl, hnext⟩ := closure_some hdest hsing
  obtain ⟨b, hb⟩ := matchLoop_some hdest (byteLen s) s 0 next hnext
  exact ⟨b, by simp [is_match, check_match, hcl, hb]⟩

theorem alnum_ne {c : Char} (h : isAlphanumeric c = true) :
    ¬ c = '.' ∧ ¬ c = '|' ∧ ¬ c = '?' ∧ ¬ c = '*' ∧ ¬ c = '+' := by
  refine ⟨?_, ?_, ?_, ?_, ?_⟩ <;> intro he <;> rw [he] at h <;> exact absurd h (by decide)

/-- The graph built by compiling a leading literal from the initial state. -/
def litGraph (c0 : Char) : NFAGraph :=
  ⟨[(0, ⟨0, [(1, Transition.char [c0])]⟩), (1, ⟨1, []⟩)], 2, 0, [0]⟩

theorem compile_first_lit {c0 : Char} (t : List Char)
    (halnum : isAlphanumeric c0 = true) :
    compileFold initGraph [] (c0 :: t) = compileFold (litGraph c0) [⟨0, [1]⟩] t := by
  obtain ⟨h1, h2, h3, h4, h5⟩ := alnum_ne halnum
  have hstep : compileStep initGraph [] c0 = CompStep.cont (litGraph c0) [⟨0, [1]⟩] := by
    have hred : compileStep initGraph [] c0 = stepLit initGraph [] c0 := by
      simp [compileStep, h1, h2, h3, h4, h5, halnum]
    rw [hred]
    rfl
  simp [compileFold, hstep]

theorem litGraph_destInv (c0 : Char) : destInv (litGraph c0) := by
  intro p hp q hq
  rcases List.mem_cons.1 hp with h | h
  · subst h
    rcases List.mem_cons.1 hq with h | h
    · subst h
      rfl
    · simp at h
  · rcases List.mem_cons.1 h with h2 | h2
    · subst h2
      simp at hq
    · simp at h2

theorem litGraph_stackOk (c0 : Char) : stackOk (litGraph c0) [⟨0, [1]⟩] := by
  intro f hf
  simp at hf
  subst hf
  refine ⟨rfl, ?_⟩
  intro e he
  simp at he
  subst he
  rfl

/-- A graph compiled from a postfix string that begins with a literal
satisfies the destination invariant and has a real start state. -/
theorem compile_good {post : List Char} {g : NFAGraph}
    (hc : compile post = some g)
    (hhead : ∃ c0 t, post = c0 :: t ∧ isAlphanumeric c0 = true) :
    destInv g ∧ isKeyS g.start g.states = true := by
  obtain ⟨c0, t, rfl, halnum⟩ := hhead
  unfold compile at hc
  rw [compile_first_lit t halnum] at hc
  have hkey0 : isKeyS (0 : Nat) (litGraph c0).states = true := rfl
  have hprops := compileFold_props t (litGraph c0) [⟨0, [1]⟩]
    (litGraph_destInv c0) (litGraph_stackOk c0)
  cases hfold : compileFold (litGraph c0) [⟨0, [1]⟩] t with
  | panicStep =>
    rw [hfold] at hc
    cases hc
  | early g1 =>
    rw [hfold] at hc
    injection hc with h
    subst h
    obtain ⟨hd, hstart, _, hkeys⟩ := hprops.2.2 g1 hfold
    refine ⟨hd, ?_⟩
    rw [hstart]
    exact hkeys 0 hkey0
  | cont g1 stack =>
    rw [hfold] at hc
    cases stack with
    | nil =>
      injection hc with h
      subst h
      obtain ⟨hd, _, hstart, _, hkeys⟩ := hprops.2.1 g1 [] hfold
      refine ⟨hd, ?_⟩
      rw [hstart]
      exact hkeys 0 hkey0
    | cons f rest =>
      injection hc with h
      subst h
      obtain ⟨hd, hs, _, _, _⟩ := hprops.2.1 g1 (f :: rest) hfold
      exact ⟨hd, (hs f (by simp)).1⟩

/-! ## The acceptance characterization (C5) -/

/-- The simulation state set `S` contains a state with zero outgoing
edges. -/
def acceptingIn (g : NFAGraph) (S : List Nat) : Prop :=
  ∃ sid ∈ S, ∃ st, lookupA sid g.states = some st ∧ st.outs = []

theorem acceptScan_true_iff {g : NFAGraph} {L : Bool} : ∀ {S : List Nat},
    (∀ x ∈ S, isKeyS x g.states = true) →
    (acceptScan g L S = some true ↔ (L = true ∧ acceptingIn g S)) := by
  intro S
  induction S with
  | nil =>
    intro _
    simp [acceptScan, acceptingIn]
  | cons sid rest ih =>
    intro hkeys
    obtain ⟨st, hlk⟩ := isKeyS_some (hkeys sid (by simp))
    by_cases hc : (st.outs.isEmpty && L) = true
    · have hc2 : st.outs.isEmpty = true ∧ L = true := by
        have hcc := hc
        rw [Bool.and_eq_true] at hcc
        exact hcc
      simp only [acceptScan, hlk, if_pos hc]
      constructor
      · intro _
        exact ⟨hc2.2, sid, by simp, st, hlk, List.isEmpty_iff.1 hc2.1⟩
      · intro _
        trivial
    · simp only [acceptScan, hlk, if_neg hc]
      rw [ih (fun x hx => hkeys x (List.mem_cons_of_mem _ hx))]
      constructor
      · rintro ⟨hL, sid1, h1, st1, h2, h3⟩
        exact ⟨hL, sid1, List.mem_cons_of_mem _ h1, st1, h2, h3⟩
      · rintro ⟨hL, sid1, h1, st1, h2, h3⟩
        refine ⟨hL, ?_⟩
        rcases List.mem_cons.1 h1 with heq | h1
        · subst heq
          rw [hlk] at h2
          injection h2 with h2
          subst h2
          rw [h3] at hc
          rw [hL] at hc
          simp at hc
        · exact ⟨sid1, h1, st1, h2, h3⟩

theorem nthSet_zero (g : NFAGraph) (s : List Char) :
    nthSet g s 0 = closure g [g.start] := rfl

theorem nthSet_succ (g : NFAGraph) (s : List Char) (n : Nat) :
    nthSet g s (n + 1) = match s.get? n with
      | none => none
      | some c =>
        match nthSet g s n with
        | none => none
        | some S =>
          match move2 g c S with
          | none => none
          | some cur => closure g cur := rfl

theorem nthSet_succ_none {g : NFAGraph} {s : List Char} {n : Nat}
    (h : nthSet g s n = none) : nthSet g s (n + 1) = none := by
  rw [nthSet_succ]
  cases hg : s.get? n with
  | none => rfl
  | some c => rw [h]

theorem nthSet_none_mono {g : NFAGraph} {s : List Char} {m n : Nat} (hmn : m ≤ n)
    (h : nthSet g s m = none) : nthSet g s n = none := by
  induction hmn with
  | refl => exact h
  | step _ ih => exact nthSet_succ_none ih

theorem nthSet_succ_nil {g : NFAGraph} {s : List Char} {n : Nat}
    (h : nthSet g s n = some []) :
    nthSet g s (n + 1) = some [] ∨ nthSet g s (n + 1) = none := by
  rw [nthSet_succ]
  cases hg : s.get? n with
  | none => exact Or.inr rfl
  | some c =>
    rw [h]
    exact Or.inl rfl

theorem nthSet_nil_mono {g : NFAGraph} {s : List Char} {m n : Nat} (hmn : m ≤ n)
    (h : nthSet g s m = some []) :
    nthSet g s n = some [] ∨ nthSet g s n = none := by
  induction hmn with
  | refl => exact Or.inl h
  | step _ ih =>
    rcases ih with h1 | h1
    · exact nthSet_succ_nil h1
    · exact Or.inr (nthSet_succ_none h1)

theorem drop_cons_get : ∀ {s : List Char} {i : Nat} {c : Char} {rest : List Char},
    s.drop i = c :: rest → s.get? i = some c ∧ s.drop (i + 1) = rest := by
  intro s
  induction s with
  | nil =>
    intro i c rest h
    rw [List.drop_nil] at h
    cases h
  | cons a t ih =>
    intro i c rest h
    cases i with
    | zero =>
      rw [List.drop_zero] at h
      injection h with h1 h2
      subst h1
      subst h2
      exact ⟨rfl, by simp⟩
    | succ i =>
      have h2 : t.drop i = c :: rest := h
      obtain ⟨ha, hb⟩ := ih h2
      exact ⟨ha, hb⟩

theorem matchLoop_cons (g : NFAGraph) (total i : Nat) (next : List Nat) (c : Char)
    (rest : List Char) :
    matchLoop g total i next (c :: rest) =
      match move2 g c next with
      | none => none
      | some cur =>
        match closure g cur with
        | none => none
        | some next2 =>
          if next2.isEmpty then some false
          else
            match acceptScan g (decide (i = total - 1)) next2 with
            | none => none
            | some true => some true
            | some false => matchLoop g total (i + 1) next2 rest := rfl

/-- The inner induction for C5: from any position `i` of the simulation,
the loop returns `true` exactly when the remaining input reaches a position
`j` equal to the byte length minus one whose updated state set contains a
state with no outgoing edges. -/
theorem matchLoop_true_iff {g : NFAGraph} {s : List Char} :
    ∀ (rest : List Char) (i : Nat) (next : List Nat),
    s.drop i = rest → nthSet g s i = some next →
    (matchLoop g (byteLen s) i next rest = some true
      ↔ ∃ j, i ≤ j ∧ j < s.length ∧ j = byteLen s - 1
          ∧ ∃ S, nthSet g s (j + 1) = some S ∧ acceptingIn g S) := by
  intro rest
  induction rest with
  | nil =>
    intro i next hdrop _
    have hlen : s.length ≤ i := by
      have := congrArg List.length hdrop
      rw [List.length_drop] at this
      simp at this
      omega
    constructor
    · intro h
      cases h
    · rintro ⟨j, hij, hjlen, _⟩
      omega
  | cons c rest ih =>
    intro i next hdrop hnth
    obtain ⟨hget, hdrop2⟩ := drop_cons_get hdrop
    have hilen : i < s.length := by
      have := congrArg List.length hdrop
      rw [List.length_drop] at this
      simp only [List.length_cons] at this
      omega
    cases hmv : move2 g c next with
    | none =>
      simp only [matchLoop_cons, hmv]
      have hnone : nthSet g s (i + 1) = none := by
        simp only [nthSet_succ, hget, hnth, hmv]
      constructor
      · intro h
        cases h
      · rintro ⟨j, hij, hjlen, hjbyte, S, hS, hacc⟩
        rw [nthSet_none_mono (by omega : i + 1 ≤ j + 1) hnone] at hS
        cases hS
    | some cur =>
      cases hcl : closure g cur with
      | none =>
        simp only [matchLoop_cons, hmv, hcl]
        have hnone : nthSet g s (i + 1) = none := by
          simp only [nthSet_succ, hget, hnth, hmv]
          exact hcl
        constructor
        · intro h
          cases h
        · rintro ⟨j, hij, hjlen, hjbyte, S, hS, hacc⟩
          rw [nthSet_none_mono (by omega : i + 1 ≤ j + 1) hnone] at hS
          cases hS
      | some next2 =>
        simp only [matchLoop_cons, hmv, hcl]
        have hnth2 : nthSet g s (i + 1) = some next2 := by
          simp only [nthSet_succ, hget, hnth, hmv]
          exact hcl
        have hkeys2 : ∀ x ∈ next2, isKeyS x g.states = true := closure_mem_key hcl
        by_cases hemp : next2 = []
        · subst hemp
          rw [if_pos List.isEmpty_nil]
          constructor
          · intro h
            cases h
          · rintro ⟨j, hij, hjlen, hjbyte, S, hS, hacc⟩
            rcases nthSet_nil_mono (by omega : i + 1 ≤ j + 1) hnth2 with h1 | h1
            · rw [h1] at hS
              injection hS with hS
              subst hS
              obtain ⟨sid, hsid, _⟩ := hacc
              cases hsid
            · rw [h1] at hS
              cases hS
        · rw [if_neg (fun he => hemp (List.isEmpty_iff.1 he))]
          have hscan := acceptScan_true_iff (L := decide (i = byteLen s - 1)) hkeys2
          cases hb : acceptScan g (decide (i = byteLen s - 1)) next2 with
          | none =>
            obtain ⟨b, hb2⟩ := acceptScan_some (L := decide (i = byteLen s - 1)) hkeys2
            rw [hb] at hb2
            cases hb2
          | some b =>
            cases b with
            | true =>
              obtain ⟨hL, hacc⟩ := hscan.1 hb
              have hibyte : i = byteLen s - 1 := of_decide_eq_true hL
              constructor
              · intro _
                exact ⟨i, le_refl i, hilen, hibyte, next2, hnth2, hacc⟩
              · intro _
                rfl
            | false =>
              have hstep : (match (some false : Option Bool) with
                  | none => (none : Option Bool)
                  | some true => some true
                  | some false => matchLoop g (byteLen s) (i + 1) next2 rest)
                  = matchLoop g (byteLen s) (i + 1) next2 rest := rfl
              rw [hstep, ih (i + 1) next2 hdrop2 hnth2]
              constructor
              · rintro ⟨j, hij, hjlen, hjbyte, S, hS, hacc⟩
                exact ⟨j, by omega, hjlen, hjbyte, S, hS, hacc⟩
              · rintro ⟨j, hij, hjlen, hjbyte, S, hS, hacc⟩
                rcases Nat.eq_or_lt_of_le hij with heq | hij2
                · subst heq
                  rw [hnth2] at hS
                  injection hS with hS
                  subst hS
                  have htrue : acceptScan g (decide (i = byteLen s - 1)) next2 = some true :=
                    hscan.2 ⟨decide_eq_true hjbyte, hacc⟩
                  rw [hb] at htrue
                  cases htrue
                · exact ⟨j, by omega, hjlen, hjbyte, S, hS, hacc⟩

/-- C5: for every compiled graph and every input string, `is_match` returns
`true` exactly when there is a character position `i` (0-based) such that
after the move-and-closure update at position `i` the current state set
contains a state with zero outgoing edges and `i` equals the input's length
minus one (the byte length `s.len()` the source compares against; a
successful position is necessarily the last character). -/
theorem c5_is_match_iff (post : List Char) (g : NFAGraph) (s : List Char)
    (_hcomp : compile post = some g) :
    (is_match g s = some true
      ↔ ∃ i, i < s.length ∧ i = byteLen s - 1
          ∧ ∃ S, nthSet g s (i + 1) = some S ∧ acceptingIn g S) := by
  unfold is_match check_match
  cases hcl : closure g [g.start] with
  | none =>
    constructor
    · intro h
      cases h
    · rintro ⟨i, hi, hib, S, hS, hacc⟩
      have h0 : nthSet g s 0 = none := by
        rw [nthSet_zero, hcl]
      rw [nthSet_none_mono (Nat.zero_le (i + 1)) h0] at hS
      cases hS
  | some next =>
    have h0 : nthSet g s 0 = some next := by
      rw [nthSet_zero, hcl]
    have hloop := matchLoop_true_iff (g := g) (s := s) s 0 next (by simp) h0
    rw [hloop]
    constructor
    · rintro ⟨j, _, hjlen, hjbyte, S, hS, hacc⟩
      exact ⟨j, hjlen, hjbyte, S, hS, hacc⟩
    · rintro ⟨j, hjlen, hjbyte, S, hS, hacc⟩
      exact ⟨j, Nat.zero_le j, hjlen, hjbyte, S, hS, hacc⟩

theorem c5_witness :
    compile ['a'] = some litAG
    ∧ (is_match litAG ['a'] = some true
        ↔ ∃ i, i < (['a'] : List Char).length ∧ i = byteLen ['a'] - 1
            ∧ ∃ S, nthSet litAG ['a'] (i + 1) = some S ∧ acceptingIn litAG S) :=
  ⟨by decide, c5_is_match_iff ['a'] litAG ['a'] (by decide)⟩

/-! ## Concrete claim theorems -/

/-- C2: the full pipeline (convert, compile, match) on the spec's concrete
scenarios: pattern "a+b+" matches "aaaabbb" and "ab" but not "a" nor "";
pattern "a(b|c)*" matches "abbcbbcc" and "a" but not "bcbbcc". -/
theorem c2_concrete_matches :
    ((NFAGraph.new "a+b+".toList).bind (fun g => is_match g "aaaabbb".toList) = some true)
    ∧ ((NFAGraph.new "a+b+".toList).bind (fun g => is_match g "ab".toList) = some true)
    ∧ ((NFAGraph.new "a+b+".toList).bind (fun g => is_match g "a".toList) = some false)
    ∧ ((NFAGraph.new "a+b+".toList).bind (fun g => is_match g "".toList) = some false)
    ∧ ((NFAGraph.new "a(b|c)*".toList).bind (fun g => is_match g "abbcbbcc".toList) = some true)
    ∧ ((NFAGraph.new "a(b|c)*".toList).bind (fun g => is_match g "a".toList) = some true)
    ∧ ((NFAGraph.new "a(b|c)*".toList).bind (fun g => is_match g "bcbbcc".toList) = some false) :=
  ⟨rfl, rfl, rfl, rfl, rfl, rfl, rfl⟩

/-- C8: converting the pattern "(a|zd*c+|e)+b+" succeeds and yields exactly
the postfix string "azd*.c+.e||+b+.". -/
theorem c8_convert_concrete :
    re2post "(a|zd*c+|e)+b+".toList = ConvOut.ok "azd*.c+.e||+b+.".toList := rfl

/-- C9: compiling the postfix form of "a+b+" produces exactly 8 states and
compiling the postfix form of "a(b|c)*" produces exactly 10 states. -/
theorem c9_state_counts :
    (NFAGraph.new "a+b+".toList).map (fun g => g.states.length) = some 8
    ∧ (NFAGraph.new "a(b|c)*".toList).map (fun g => g.states.length) = some 10 :=
  ⟨rfl, rfl⟩

/-- C1 counterexample: the empty pattern is accepted by the converter and
compiles, but `is_match` on the resulting graph panics (the `unwrap` of the
absent start state `StateId(0)` in `closure`), so `is_match` is not total
over all accepted patterns. -/
theorem c1_counterexample :
    re2post [] = ConvOut.ok [] ∧ compile [] = some initGraph
    ∧ is_match initGraph [] = none :=
  ⟨rfl, rfl, rfl⟩

/-- C1 amended: for every graph produced by compiling a *nonempty* pattern
accepted by the Postfix Converter, and every input string, `is_match`
returns a boolean and never panics.  (The empty pattern is accepted but its
graph makes `is_match` panic, see the counterexample.) -/
theorem c1_amended_total (p post : List Char) (g : NFAGraph) (s : List Char)
    (hne : p ≠ []) (hok : re2post p = ConvOut.ok post)
    (hc : compile post = some g) :
    ∃ b, is_match g s = some b := by
  obtain ⟨_, _, hshape⟩ := re2post_ok_props hok
  obtain ⟨hd, hstart⟩ := compile_good hc (hshape hne)
  exact is_match_total hd hstart s

theorem c1_witness :
    (['a'] : List Char) ≠ [] ∧ re2post ['a'] = ConvOut.ok ['a']
    ∧ compile ['a'] = some litAG ∧ ∃ b, is_match litAG [] = some b :=
  ⟨by decide, by decide, by decide,
    c1_amended_total ['a'] ['a'] litAG [] (by decide) (by decide) (by decide)⟩

/-- C7 amended: for every graph, whenever `is_match` on the empty input
string returns at all (rather than panicking on a missing state), it
returns `false`: the matching loop body never executes. -/
theorem c7_amended_empty_input (g : NFAGraph) (b : Bool)
    (h : is_match g [] = some b) : b = false := by
  unfold is_match check_match at h
  cases hcl : closure g [g.start] with
  | none =>
    rw [hcl] at h
    cases h
  | some next =>
    rw [hcl] at h
    replace h : matchLoop g (byteLen []) 0 next [] = some b := h
    have hfalse : matchLoop g (byteLen []) 0 next [] = some false := rfl
    rw [hfalse] at h
    injection h with h
    exact h.symm

theorem c7_witness : is_match litAG [] = some false ∧ false = false :=
  ⟨by decide, c7_amended_empty_input litAG false (by decide)⟩

/-- C7 counterexample: for the graph compiled from the empty pattern,
`is_match` on the empty input panics (`none`) instead of returning `false`,
so the claim fails for this graph. -/
theorem c7_counterexample :
    compile [] = some initGraph ∧ is_match initGraph [] ≠ some false :=
  ⟨rfl, by decide⟩

/-- C10: for every postfix string, every graph returned by `compile`
(including degraded early returns) satisfies: every `StateId` that appears
as the destination of some transition is a key of the state mapping. -/
theorem c10_dest_invariant (post : List Char) (g : NFAGraph)
    (hc : compile post = some g) :
    ∀ p ∈ g.states, ∀ q ∈ p.2.outs, isKeyS q.1 g.states = true := by
  have hprops := compileFold_props post initGraph [] destInv_initGraph (stackOk_nil _)
  unfold compile at hc
  cases hfold : compileFold initGraph [] post with
  | panicStep =>
    rw [hfold] at hc
    cases hc
  | early g1 =>
    rw [hfold] at hc
    injection hc with h
    subst h
    exact (hprops.2.2 g1 hfold).1
  | cont g1 stack =>
    rw [hfold] at hc
    cases stack with
    | nil =>
      injection hc with h
      subst h
      exact (hprops.2.1 g1 [] hfold).1
    | cons f rest =>
      injection hc with h
      subst h
      exact (hprops.2.1 g1 (f :: rest) hfold).1

theorem c10_witness :
    compile ['a'] = some litAG
    ∧ ∀ p ∈ litAG.states, ∀ q ∈ p.2.outs, isKeyS q.1 litAG.states = true :=
  ⟨rfl, c10_dest_invariant ['a'] litAG rfl⟩

/-- C6: for every postfix string in which some operator token is reached
with insufficient fragment-stack depth, `compile` stops at that token and
returns the partially built graph as-is, with `start = StateId(0)` and
`ends = [StateId(0)]`, without raising any error. -/
theorem c6_underflow_degraded (pre : List Char) (ch : Char) (rest : List Char)
    (g : NFAGraph) (stack : List Frag)
    (hpre : compileFold initGraph [] pre = CompStep.cont g stack)
    (hu : underflowAt stack ch) :
    compile (pre ++ ch :: rest) = some g ∧ g.start = 0 ∧ g.ends = [0] := by
  have hprops := compileFold_props pre initGraph [] destInv_initGraph (stackOk_nil _)
  obtain ⟨_, _, hstart, hends, _⟩ := hprops.2.1 g stack hpre
  have hfold : compileFold initGraph [] (pre ++ ch :: rest) = CompStep.early g := by
    rw [compileFold_append, hpre]
    simp only [compileFold, compileStep_underflow hu]
  refine ⟨?_, hstart, hends⟩
  unfold compile
  rw [hfold]

/-- The partial graph built from the literal prefix "a" when the following
token underflows. -/
def litA : NFAGraph :=
  ⟨[(0, ⟨0, [(1, Transition.char ['a'])]⟩), (1, ⟨1, []⟩)], 2, 0, [0]⟩

theorem c6_witness :
    compileFold initGraph [] ['a'] = CompStep.cont litA [⟨0, [1]⟩]
    ∧ underflowAt [⟨0, [1]⟩] '.'
    ∧ (compile ['a', '.'] = some litA ∧ litA.start = 0 ∧ litA.ends = [0]) :=
  ⟨rfl, Or.inl ⟨Or.inl rfl, by decide⟩,
    c6_underflow_degraded ['a'] '.' [] litA [⟨0, [1]⟩] rfl (Or.inl ⟨Or.inl rfl, by decide⟩)⟩

theorem alnum_ne_paren {c : Char} (h : isAlphanumeric c = true) :
    ¬ c = '(' ∧ ¬ c = ')' := by
  refine ⟨?_, ?_⟩ <;> intro he <;> rw [he] at h <;> exact absurd h (by decide)

/-- Converting a literal followed by a postfix operator gives back the same
two characters. -/
theorem re2post_lit_op {c : Char} (halnum : isAlphanumeric c = true) {op : Char}
    (hop : op = '*' ∨ op = '?') : re2post [c, op] = ConvOut.ok [c, op] := by
  obtain ⟨h1, h2, h3, h4, h5⟩ := alnum_ne halnum
  obtain ⟨h6, h7⟩ := alnum_ne_paren halnum
  have hstep1 : convStep ⟨[], [], 0, 0⟩ c = CStep.cont ⟨[c], [], 1, 0⟩ := by
    simp [convStep, h2, h3, h4, h5, h6, h7, halnum]
  have hstep2 : convStep ⟨[c], [], 1, 0⟩ op = CStep.cont ⟨[c, op], [], 1, 0⟩ := by
    rcases hop with rfl | rfl <;> rfl
  have hfold : convFold ⟨[], [], 0, 0⟩ [c, op] = CStep.cont ⟨[c, op], [], 1, 0⟩ := by
    simp [convFold, hstep1, hstep2]
  unfold re2post
  rw [hfold]
  rfl

/-- The graph the pipeline produces for the pattern "c*", for any
alphanumeric c: the star branch's epsilon bypass from state 0 to state 1
has overwritten the Char edge between the same pair of states, so no
character edge remains anywhere in the graph. -/
def Gstar : NFAGraph :=
  ⟨[(0, ⟨0, [(1, Transition.epsilon)]⟩),
    (1, ⟨1, [(3, Transition.epsilon), (0, Transition.epsilon)]⟩),
    (2, ⟨2, [(0, Transition.epsilon)]⟩),
    (3, ⟨3, []⟩)], 4, 2, [3]⟩

/-- The graph the pipeline produces for the pattern "c?", for any
alphanumeric c: the question branch's epsilon bypass has overwritten the
Char edge from state 0 to state 1. -/
def Gqm : NFAGraph :=
  ⟨[(0, ⟨0, [(1, Transition.epsilon)]⟩), (1, ⟨1, []⟩)], 2, 0, [1]⟩

theorem compile_lit_star {c : Char} (halnum : isAlphanumeric c = true) :
    compile [c, '*'] = some Gstar := by
  unfold compile
  rw [compile_first_lit ['*'] halnum]
  rfl

theorem compile_lit_qm {c : Char} (halnum : isAlphanumeric c = true) :
    compile [c, '?'] = some Gqm := by
  unfold compile
  rw [compile_first_lit ['?'] halnum]
  rfl

theorem is_match_Gstar : ∀ (s : List Char), is_match Gstar s = some false
  | [] => rfl
  | _ :: _ => rfl

theorem is_match_Gqm : ∀ (s : List Char), is_match Gqm s = some false
  | [] => rfl
  | _ :: _ => rfl

/-- C3: for every alphanumeric character c, the graph the pipeline compiles
from the pattern consisting of c followed by '*' (and likewise c followed
by '?') rejects every input string, including the one-character string
consisting of c itself: the star/question construction inserts an epsilon
edge from the literal's start state to its end state, and since a state's
outgoing edges are keyed by destination, it overwrites the character edge
between the same pair of states. -/
theorem c3_star_question_reject (c : Char) (s : List Char)
    (halnum : isAlphanumeric c = true) :
    ((NFAGraph.new [c, '*']).bind (fun g => is_match g s) = some false)
    ∧ ((NFAGraph.new [c, '?']).bind (fun g => is_match g s) = some false) := by
  constructor
  · have hnew : NFAGraph.new [c, '*'] = some Gstar := by
      unfold NFAGraph.new
      rw [re2post_lit_op halnum (Or.inl rfl)]
      exact compile_lit_star halnum
    rw [hnew]
    exact is_match_Gstar s
  · have hnew : NFAGraph.new [c, '?'] = some Gqm := by
      unfold NFAGraph.new
      rw [re2post_lit_op halnum (Or.inr rfl)]
      exact compile_lit_qm halnum
    rw [hnew]
    exact is_match_Gqm s

theorem c3_witness :
    isAlphanumeric 'a' = true
    ∧ ((NFAGraph.new ['a', '*']).bind (fun g => is_match g ['a']) = some false)
    ∧ ((NFAGraph.new ['a', '?']).bind (fun g => is_match g ['a']) = some false) :=
  ⟨by decide, c3_star_question_reject 'a' ['a'] (by decide)⟩

/-- C4 counterexample: on the pattern "#" — whose character is neither
alphanumeric nor one of the special characters — `re2post` hits the
`panic!("illegal character")` branch rather than returning the recoverable
`None`/ParseError. -/
theorem c4_counterexample :
    re2post ['#'] = ConvOut.panicked ∧ re2post ['#'] ≠ ConvOut.err :=
  ⟨rfl, by decide⟩

end RegexRs
